import Mathlib

/-!
# Verification of the nonogram solver core

Shallow embedding of the nonogram hint model and backtracking solver
(`src/nonogram.c`, `src/nonogram-solve.c`, and the hint reader of the
companion translation unit).  Board cells are C `int`s: `1` is Filled,
`0` is Empty, `-1` is Unknown (the value `solve_nonogram` initializes
with and the value written back on backtrack).  Hint arrays are C `int`
arrays allocated with `calloc`, hence zero-padded after the stored runs;
reads beyond the stored list yield `0`, which `nthD` models.
-/

namespace Nonogram

/-- Read index `i` of a list, with default `d` out of bounds (C array read of
a `calloc`-zeroed array, within its allocated extent). -/
def nthD {α : Type} : List α → Nat → α → α
  | [], _, d => d
  | x :: _, 0, _ => x
  | _ :: l, n + 1, d => nthD l n d

/-- Write index `i` of a list (C array store; out-of-range writes never occur
on the executions the claims are about, and are dropped here). -/
def setNth {α : Type} : List α → Nat → α → List α
  | [], _, _ => []
  | _ :: l, 0, v => v :: l
  | x :: l, n + 1, v => x :: setNth l n v

/-- `board[r][c]`. -/
def cellAt (board : List (List Int)) (r c : Nat) : Int :=
  nthD (nthD board r []) c 0

/-- `board[r][c] = v`. -/
def setCell (board : List (List Int)) (r c : Nat) (v : Int) : List (List Int) :=
  setNth board r (setNth (nthD board r []) c v)

/-- The row `r` of the board as read by the C loops `for (c = 0; c < cols; ++c)`. -/
def getRow (board : List (List Int)) (r cols : Nat) : List Int :=
  (List.range cols).map fun c => cellAt board r c

/-- The column `c` of the board as read by the C loops `for (r = 0; r < rows; ++r)`. -/
def getCol (board : List (List Int)) (c rows : Nat) : List Int :=
  (List.range rows).map fun r => cellAt board r c

/-- The all-Unknown board `solve_nonogram` allocates (`board[i][j] = -1`). -/
def initBoardUnknown (rows cols : Nat) : List (List Int) :=
  List.replicate rows (List.replicate cols (-1))

/-- `struct _NonoGramHints` (nonogram.inc): counts plus the two hint tables.
Each entry of `rows` is the content of the C array `hints->rows[r]`
(`cols_count` ints, zero-padded past the stored runs); reads use `nthD` with
default `0` to model the `calloc` padding. -/
structure NonoGramHints where
  rows_count : Nat
  cols_count : Nat
  rows : List (List Int)
  cols : List (List Int)
  deriving DecidableEq, Repr

/-- One line scan of `is_valid_move` (nonogram-solve.c:237-250 for rows,
255-268 for columns): walk the cells, count consecutive `1`s, and on any
non-`1` cell compare a just-ended positive run against the next hint;
after the loop compare a still-open trailing run. -/
def checkLine : List Int → List Int → Int → Nat → Bool
  | [], hline, count, idx =>
      !(count > 0 && count ≠ nthD hline idx 0)
  | x :: rest, hline, count, idx =>
      if x = 1 then
        checkLine rest hline (count + 1) idx
      else
        if count > 0 then
          if count ≠ nthD hline idx 0 then false
          else checkLine rest hline 0 (idx + 1)
        else checkLine rest hline count idx

/-- `is_valid_move(board, row, col, hints)` (nonogram-solve.c:233-271). -/
def is_valid_move (board : List (List Int)) (row col : Nat) (hints : NonoGramHints) : Bool :=
  checkLine (getRow board row hints.cols_count) (nthD hints.rows row []) 0 0 &&
  checkLine (getCol board col hints.rows_count) (nthD hints.cols col []) 0 0

/-- Length of the leading run of `1`s (the `while (j < n && line[j] == 1)`
loops of `is_solved`). -/
def countRun : List Int → Nat
  | [] => 0
  | x :: l => if x = 1 then countRun l + 1 else 0

/-- One line check of `is_solved` (nonogram-solve.c:284-296 for a row): for
each hint index `i` from `0` to `hn - 1`, count the run of `1`s at cursor `j`,
compare it with `hline[i]`, then skip a single `0` cell if one is next.
`len` is the line length bound of the inner `while`/`if` (`cols` resp. `rows`). -/
def solvedLineIter (line hline : List Int) (len : Nat) : Nat → Nat → Nat → Bool
  | 0, _, _ => true
  | iters + 1, i, j =>
      let cnt := countRun (line.drop j)
      if (cnt : Int) ≠ nthD hline i 0 then false
      else
        let j1 := j + cnt
        let j2 := if j1 < len ∧ nthD line j1 0 = 0 then j1 + 1 else j1
        solvedLineIter line hline len iters (i + 1) j2

/-- Full line check of `is_solved`: `hn` iterations of the hint-index loop. -/
def solvedLine (line hline : List Int) (len hn : Nat) : Bool :=
  solvedLineIter line hline len hn 0 0

/-- `is_solved(board, rows, cols, hints)` (nonogram-solve.c:281-318). -/
def is_solved (board : List (List Int)) (rows cols : Nat) (hints : NonoGramHints) : Bool :=
  ((List.range rows).all fun row =>
    solvedLine (getRow board row cols) (nthD hints.rows row []) cols hints.cols_count) &&
  ((List.range cols).all fun col =>
    solvedLine (getCol board col rows) (nthD hints.cols col []) rows hints.rows_count)

/-- `row + 1` at the end of a row, else `row` (nonogram-solve.c:196). -/
def nextRow (cols row col : Nat) : Nat :=
  if col = cols - 1 then row + 1 else row

/-- `(col + 1) % cols` (nonogram-solve.c:197). -/
def nextCol (cols col : Nat) : Nat := (col + 1) % cols

/-- `solve_recursive(board, row, col, rows, cols, hints)`
(nonogram-solve.c:188-223), with an explicit fuel so the Lean function is
total even on the invalid cursors on which the C recursion would not return
(`row > rows`); `none` is fuel exhaustion, never returned for a valid cursor
(theorem `c10_theorem`).  The board is threaded functionally: each call
returns the mutated board alongside the C return value.  On the failure path
the C writes `board[row][col] = -1` before returning `false`. -/
def solveRecF (hints : NonoGramHints) (rows cols : Nat) :
    Nat → List (List Int) → Nat → Nat → Option (Bool × List (List Int))
  | 0, _, _, _ => none
  | fuel + 1, board, row, col =>
    if row = rows then some (is_solved board rows cols hints, board)
    else
      let nr := nextRow cols row col
      let nc := nextCol cols col
      if cellAt board row col = 1 then
        solveRecF hints rows cols fuel board nr nc
      else
        let b1 := setCell board row col 1
        let after1 : Option (Bool × List (List Int)) :=
          if is_valid_move b1 row col hints then
            solveRecF hints rows cols fuel b1 nr nc
          else some (false, b1)
        match after1 with
        | none => none
        | some (true, b') => some (true, b')
        | some (false, b1done) =>
          let b0 := setCell b1done row col 0
          let after0 : Option (Bool × List (List Int)) :=
            if is_valid_move b0 row col hints then
              solveRecF hints rows cols fuel b0 nr nc
            else some (false, b0)
          match after0 with
          | none => none
          | some (true, b') => some (true, b')
          | some (false, b0done) => some (false, setCell b0done row col (-1))

/-- `solve_recursive` run with enough fuel for any valid cursor. -/
def solve_recursive (hints : NonoGramHints) (rows cols : Nat)
    (board : List (List Int)) (row col : Nat) : Option (Bool × List (List Int)) :=
  solveRecF hints rows cols (rows * cols + 1) board row col

/-- `solve_nonogram(hints)` (nonogram-solve.c:359-399): build the all-`-1`
board and run `solve_recursive(board, 0, 0, rows, cols, hints)`; the C then
prints the board whether or not the search succeeded. -/
def solve_nonogram (hints : NonoGramHints) : Option (Bool × List (List Int)) :=
  solve_recursive hints hints.rows_count hints.cols_count
    (initBoardUnknown hints.rows_count hints.cols_count) 0 0

/-! ## Hint construction (`nonogram.c`) -/

/-- The inner loop of `_nonogram_hints_fill` (nonogram.c:115-130 for a row):
count consecutive `1`s, on each non-`1` cell flush a positive count, and after
the loop store the final count (possibly `0`) one more time.  The returned
list is the sequence of values written at indices `0, 1, 2, …` of the
`calloc`-zeroed hint array, so the array content is this list followed by
zeros, which is how `nthD _ _ 0` reads it. -/
def fillLineAux : List Int → Int → List Int
  | [], count => [count]
  | x :: rest, count =>
      if x = 1 then fillLineAux rest (count + 1)
      else
        if count > 0 then count :: fillLineAux rest 0
        else fillLineAux rest 0

/-- Hint line derived from a board line by `_nonogram_hints_fill`. -/
def fillLine (line : List Int) : List Int := fillLineAux line 0

/-- `_nonogram_hints_new(rows_count, cols_count)` (nonogram.c:21-87): `NULL`
iff a count is zero (allocation is modelled as always succeeding). -/
def _nonogram_hints_new (rows_count cols_count : Nat) : Option Unit :=
  if rows_count = 0 ∨ cols_count = 0 then none else some ()

/-- `nonogram_hints_create(board, rows_count, cols_count)` (nonogram.c:151-163):
allocate via `_nonogram_hints_new`, then fill every row and column hint line
with `_nonogram_hints_fill`. -/
def nonogram_hints_create (board : List (List Int)) (rows_count cols_count : Nat) :
    Option NonoGramHints :=
  match _nonogram_hints_new rows_count cols_count with
  | none => none
  | some _ => some
      { rows_count := rows_count
        cols_count := cols_count
        rows := (List.range rows_count).map fun r => fillLine (getRow board r cols_count)
        cols := (List.range cols_count).map fun c => fillLine (getCol board c rows_count) }

/-- Drop the leading run of `1`s (companion to `countRun`). -/
def dropRun : List Int → List Int
  | [] => []
  | x :: l => if x = 1 then dropRun l else x :: l

theorem dropRun_length_le : ∀ l : List Int, (dropRun l).length ≤ l.length := by
  intro l
  induction l with
  | nil => simp [dropRun]
  | cons x l ih =>
    by_cases hx : x = 1 <;> simp [dropRun, hx]
    omega

/-- Following the spec's words (§4.1): the lengths of the maximal contiguous
blocks of `Filled` (`1`) cells of a line, in scan order.  Stated
independently of `_nonogram_hints_fill` so the two can be compared. -/
def maximalBlocksNat : List Int → List Nat
  | [] => []
  | x :: rest =>
      if x = 1 then (countRun rest + 1) :: maximalBlocksNat (dropRun rest)
      else maximalBlocksNat rest
termination_by l => l.length
decreasing_by
  all_goals simp only [List.length_cons]
  all_goals first
    | exact Nat.lt_succ_of_le (dropRun_length_le _)
    | exact Nat.lt_succ_of_le (Nat.le_refl _)

/-! ## The JSON hint reader (`read_json_file`, nonogram-solve.c:45-176)

`read_json_file` reads the file, parses it with cJSON, requires numeric
`rows_count` and `cols_count` members, builds a `rows_count × cols_count`
zero board, calls `nonogram_hints_create` on it (zero hint lines), and then
overwrites the hint arrays in place with the numbers found in the `rows` and
`cols` members.  The file- and cJSON-level plumbing is dropped: the function
below receives the already-extracted counts and the two arrays of arrays of
numbers, which is the data the C loops at lines 112-169 iterate over. -/

/-- Overwrite the first entries of a `calloc`-zeroed array of `n` ints with
`vals` (the `hints->rows[row_index][col_index++] = col_item->valueint` loop). -/
def padTo (n : Nat) (vals : List Int) : List Int :=
  vals ++ List.replicate (n - vals.length) 0

/-- `read_json_file`, after cJSON extraction. -/
def read_json_file (rows_count cols_count : Nat)
    (rowsJ colsJ : List (List Int)) : Option NonoGramHints :=
  match nonogram_hints_create
      (initBoardUnknown rows_count cols_count |>.map fun r => r.map fun _ => 0)
      rows_count cols_count with
  | none => none
  | some _ => some
      { rows_count := rows_count
        cols_count := cols_count
        rows := (rowsJ.take rows_count).map (padTo cols_count) ++
          List.replicate (rows_count - rowsJ.length) (List.replicate cols_count 0)
        cols := (colsJ.take cols_count).map (padTo rows_count) ++
          List.replicate (cols_count - colsJ.length) (List.replicate rows_count 0) }

end Nonogram

namespace Nonogram

/-! ## General lemmas about the access helpers -/

theorem nthD_map {α β : Type} (f : α → β) :
    ∀ (l : List α) (n : Nat) (d : α), nthD (l.map f) n (f d) = f (nthD l n d) := by
  intro l
  induction l with
  | nil => intro n d; simp [nthD]
  | cons x l ih =>
    intro n d
    cases n with
    | zero => simp [nthD]
    | succ n => simpa [nthD] using ih n d

/-- Replace every Unknown (`-1`) cell by Empty (`0`); the other values are
kept.  Used to state that `is_valid_move` cannot tell the two apart. -/
def unknownToEmpty (board : List (List Int)) : List (List Int) :=
  board.map fun r => r.map fun v => if v = -1 then 0 else v

theorem cellAt_unknownToEmpty (board : List (List Int)) (r c : Nat) :
    cellAt (unknownToEmpty board) r c =
      (fun v => if v = (-1 : Int) then 0 else v) (cellAt board r c) := by
  unfold cellAt unknownToEmpty
  have h1 : nthD (board.map fun row => row.map fun v => if v = (-1 : Int) then 0 else v) r
      ((List.map fun v => if v = (-1 : Int) then 0 else v) []) =
      (nthD board r []).map fun v => if v = (-1 : Int) then 0 else v :=
    nthD_map _ board r []
  simp only [List.map_nil] at h1
  rw [h1]
  have h2 := nthD_map (fun v => if v = (-1 : Int) then 0 else v) (nthD board r []) c 0
  simpa using h2

theorem checkLine_map_unknown (g : Int → Int) (hg : ∀ v, g v = 1 ↔ v = 1) :
    ∀ (line hline : List Int) (count : Int) (idx : Nat),
      checkLine (line.map g) hline count idx = checkLine line hline count idx := by
  intro line
  induction line with
  | nil => intro hline count idx; simp [checkLine]
  | cons x rest ih =>
    intro hline count idx
    by_cases hx : x = 1
    · subst hx
      have hgx : g 1 = 1 := (hg 1).mpr rfl
      simp [checkLine, hgx, ih]
    · have hgx : ¬ g x = 1 := fun h => hx ((hg x).mp h)
      simp only [List.map_cons, checkLine, if_neg hgx, if_neg hx]
      by_cases hc : count > 0
      · simp only [if_pos hc]
        by_cases hne : count ≠ nthD hline idx 0
        · simp only [if_pos hne]
        · simp only [if_neg hne, ih]
      · simp only [if_neg hc, ih]

/-- C1 (amended): the pruning check `is_valid_move` treats `Unknown` exactly
like `Empty` — replacing every `Unknown` cell of the board by `Empty` leaves
its verdict unchanged.  In particular a run of Filled cells that is bounded
by an `Unknown` cell is closed and validated strictly against the next hint,
the same way a run closed by an `Empty` cell is. -/
theorem c1_theorem (board : List (List Int)) (row col : Nat) (hints : NonoGramHints) :
    is_valid_move (unknownToEmpty board) row col hints = is_valid_move board row col hints := by
  have hg : ∀ v : Int, (if v = (-1 : Int) then 0 else v) = 1 ↔ v = 1 := by
    intro v
    by_cases hv : v = (-1 : Int) <;> simp [hv]
  unfold is_valid_move
  have hrow : getRow (unknownToEmpty board) row hints.cols_count =
      (getRow board row hints.cols_count).map fun v => if v = (-1 : Int) then 0 else v := by
    unfold getRow
    rw [List.map_map]
    exact List.map_congr_left fun c _ => cellAt_unknownToEmpty board row c
  have hcol : getCol (unknownToEmpty board) col hints.rows_count =
      (getCol board col hints.rows_count).map fun v => if v = (-1 : Int) then 0 else v := by
    unfold getCol
    rw [List.map_map]
    exact List.map_congr_left fun r _ => cellAt_unknownToEmpty board r col
  rw [hrow, hcol, checkLine_map_unknown _ hg, checkLine_map_unknown _ hg]

/-- C1 (counterexample): on the 1×2 board `[1, Unknown]` with row hint `[2]`
and column-0 hint `[1]`, the board contains no `Empty` cell at all — so no
run is closed by an `Empty` cell, and by the claim nothing should be
validated strictly — and filling the `Unknown` cell with `Filled` would
satisfy every hint; yet `is_valid_move` rejects the state, because it
compares the run `[1]` bounded by the `Unknown` cell strictly against the
hint `2`. -/
theorem c1_counterexample :
    is_valid_move [[1, -1]] 0 0 ⟨1, 2, [[2]], [[1], []]⟩ = false ∧
    ([[1, -1]] : List (List Int)).all (fun r => r.all fun v => v ≠ 0) = true ∧
    is_valid_move [[1, 1]] 0 0 ⟨1, 2, [[2]], [[1], []]⟩ = true := by
  decide

/-- C2: `is_solved` does not require the board to be fully assigned.  On the
1×1 board whose only cell is `Unknown`, with empty row and column hints
(hint lines `[0]`), it returns `true` even though the cell is `Unknown`:
the scan cursor `j` is simply stuck on the `Unknown` cell while every hint
comparison sees a zero count. -/
theorem c2_theorem :
    is_solved [[-1]] 1 1 ⟨1, 1, [[0]], [[0]]⟩ = true ∧
    cellAt [[-1]] 0 0 = -1 := by
  decide

/-- C5: on the 2×2 instance `rows = [[1],[1]]`, `cols = [[1],[1]]` the solver
does not return the board `[[1,0],[0,1]]`: `is_solved` rejects that board
(row 1 starts with an `Empty` cell, and the scan compares a zero-length run
against the hint `1`), so the search exhausts every branch and
`solve_nonogram` reports failure, handing back the backtracked all-`Unknown`
board. -/
theorem c5_theorem :
    solve_nonogram ⟨2, 2, [[1], [1]], [[1], [1]]⟩ =
      some (false, initBoardUnknown 2 2) ∧
    is_solved [[1, 0], [0, 1]] 2 2 ⟨2, 2, [[1], [1]], [[1], [1]]⟩ = false := by
  decide

/-- The 2-row, 1-column instance with row hints `[[2],[2]]` and column hint
`[[2]]`, as `read_json_file` stores it. -/
def hints21 : NonoGramHints := ⟨2, 1, [[2], [2]], [[2, 0]]⟩

/-- C3 (counterexample): the reader performs no capacity validation: the
2×1 instance whose row hints `[2]` cannot fit in one column is accepted
(`read_json_file` returns a hints object, not an error), and the
backtracking search is then invoked on it and returns `false` — there is no
rejection before search. -/
theorem c3_counterexample :
    read_json_file 2 1 [[2], [2]] [[2]] = some hints21 ∧
    (solve_nonogram hints21).map Prod.fst = some false := by
  decide

/-- C3 (amended): on the malformed 2×1 instance the search itself runs and
exhausts: `solve_nonogram` explores the cell assignments and returns the
unsatisfiable outcome with the fully backtracked board. -/
theorem c3_theorem :
    solve_nonogram hints21 = some (false, initBoardUnknown 2 1) := by
  decide

/-- C6 (counterexample): a cell pre-seeded `Empty` is not committed.  On the
1×1 puzzle with hints `[[1]]`/`[[1]]`, starting from the seed board `[[0]]`
(the cell already `Empty`), the solver overwrites the cell with `Filled` and
returns that board: the pre-assigned `Empty` cell was reassigned. -/
theorem c6_counterexample :
    solveRecF ⟨1, 1, [[1]], [[1]]⟩ 1 1 2 [[0]] 0 0 = some (true, [[1]]) ∧
    cellAt [[0]] 0 0 = 0 := by
  decide

/-- C7: `nonogram_hints_create` fails (returns `NULL`) exactly when the
number of rows or the number of columns is zero; for positive dimensions it
returns a hints object. -/
theorem c7_theorem (board : List (List Int)) (rows_count cols_count : Nat) :
    nonogram_hints_create board rows_count cols_count = none ↔
      rows_count = 0 ∨ cols_count = 0 := by
  unfold nonogram_hints_create _nonogram_hints_new
  by_cases h : rows_count = 0 ∨ cols_count = 0 <;> simp [h]

end Nonogram

namespace Nonogram

/-! ## C8: the derived hints are the maximal-block lengths -/

theorem nthD_eq_getElem? {α : Type} :
    ∀ (l : List α) (n : Nat) (d : α), nthD l n d = l[n]?.getD d := by
  intro l
  induction l with
  | nil => intro n d; cases n <;> simp [nthD]
  | cons x l ih =>
    intro n d
    cases n with
    | zero => simp [nthD]
    | succ n => simp [nthD, ih]

theorem nthD_range_map {α : Type} (f : Nat → α) (m i : Nat) (d : α) :
    nthD ((List.range m).map f) i d = if i < m then f i else d := by
  rw [nthD_eq_getElem?, List.getElem?_map]
  by_cases h : i < m
  · rw [List.getElem?_range h]
    simp [h]
  · rw [List.getElem?_eq_none]
    · simp [h]
    · simpa using Nat.le_of_not_lt h

theorem countRun_cast (l : List Int) (x : Int) (hx : x = 1) :
    countRun (x :: l) = countRun l + 1 := by
  simp [countRun, hx]

/-- The first cell kept by `dropRun` is not `1`. -/
theorem dropRun_shape :
    ∀ l : List Int, dropRun l = [] ∨ ∃ y r, dropRun l = y :: r ∧ y ≠ 1 := by
  intro l
  induction l with
  | nil => left; rfl
  | cons x l ih =>
    by_cases hx : x = 1
    · simpa [dropRun, hx] using ih
    · right; exact ⟨x, l, by simp [dropRun, hx], hx⟩

/-- What `_nonogram_hints_fill` writes after the cell that closed the
current run: nothing if the line ended, otherwise the values for the rest of
the line with the count reset to `0`. -/
def tailFill (l : List Int) : List Int :=
  match dropRun l with
  | [] => []
  | _ :: r => fillLineAux r 0

/-- Unrolling `fillLineAux` over the leading run: with a positive running
count it emits `count + countRun l` and continues after the cell that closed
the run. -/
theorem fillLineAux_pos :
    ∀ (l : List Int) (c : Int), 0 < c →
      fillLineAux l c = (c + (countRun l : Int)) :: tailFill l := by
  intro l
  induction l with
  | nil => intro c _; simp [fillLineAux, countRun, tailFill, dropRun]
  | cons x l ih =>
    intro c hc
    by_cases hx : x = 1
    · have h1 : fillLineAux (x :: l) c = fillLineAux l (c + 1) := by
        simp [fillLineAux, hx]
      rw [h1, ih (c + 1) (by omega)]
      have h2 : countRun (x :: l) = countRun l + 1 := countRun_cast l x hx
      have h3 : tailFill (x :: l) = tailFill l := by simp [tailFill, dropRun, hx]
      rw [h2, h3]
      congr 1
      push_cast
      ring
    · have h1 : fillLineAux (x :: l) c = c :: fillLineAux l 0 := by
        simp [fillLineAux, hx, hc]
      have h2 : countRun (x :: l) = 0 := by simp [countRun, hx]
      have h3 : tailFill (x :: l) = fillLineAux l 0 := by
        simp [tailFill, dropRun, hx]
      rw [h1, h2, h3]
      simp

/-- The block lengths as the `int` values stored in the hint arrays. -/
def natsToInts (l : List Nat) : List Int := l.map fun k : Nat => (k : Int)

theorem natsToInts_nil : natsToInts [] = [] := rfl

theorem natsToInts_cons (k : Nat) (l : List Nat) :
    natsToInts (k :: l) = ((k : Int)) :: natsToInts l := rfl

/-- The sequence of values `_nonogram_hints_fill` writes for a line is the
maximal-block lengths of the line, followed by the terminating `0` exactly
when the line does not end inside a block. -/
theorem fillLine_blocks_aux :
    ∀ (n : Nat) (l : List Int), l.length ≤ n →
      fillLine l = natsToInts (maximalBlocksNat l) ∨
      fillLine l = natsToInts (maximalBlocksNat l) ++ [0] := by
  intro n
  induction n with
  | zero =>
    intro l hl
    have : l = [] := List.eq_nil_of_length_eq_zero (Nat.le_zero.mp hl)
    subst this
    right
    simp [fillLine, fillLineAux, maximalBlocksNat, natsToInts]
  | succ n ih =>
    intro l hl
    match l with
    | [] =>
      right
      simp [fillLine, fillLineAux, maximalBlocksNat, natsToInts]
    | x :: rest =>
      by_cases hx : x = 1
      · have h1 : fillLine (x :: rest) = fillLineAux rest 1 := by
          simp [fillLine, fillLineAux, hx]
        have h2 : maximalBlocksNat (x :: rest) =
            (countRun rest + 1) :: maximalBlocksNat (dropRun rest) := by
          simp [maximalBlocksNat, hx]
        rw [h1, h2, fillLineAux_pos rest 1 Int.one_pos]
        rcases dropRun_shape rest with hdrop | ⟨y, r, hdrop, hy⟩
        · left
          rw [hdrop]
          have htail : tailFill rest = [] := by simp [tailFill, hdrop]
          rw [htail]
          simp only [maximalBlocksNat, natsToInts_cons, natsToInts_nil]
          congr 1
          omega
        · rw [hdrop]
          have hblocks : maximalBlocksNat (y :: r) = maximalBlocksNat r := by
            simp [maximalBlocksNat, hy]
          have htail : tailFill rest = fillLine r := by
            simp [tailFill, hdrop, fillLine]
          have hlen : r.length ≤ n := by
            have h3 : (dropRun rest).length ≤ rest.length := dropRun_length_le rest
            rw [hdrop] at h3
            simp only [List.length_cons] at h3 hl
            omega
          rw [htail, hblocks]
          rcases ih r hlen with hfill | hfill
          · left
            rw [natsToInts_cons, hfill]
            congr 1
            omega
          · right
            rw [natsToInts_cons, hfill]
            rw [List.cons_append]
            congr 1
            omega
      · have h1 : fillLine (x :: rest) = fillLine rest := by
          simp [fillLine, fillLineAux, hx]
        have h2 : maximalBlocksNat (x :: rest) = maximalBlocksNat rest := by
          simp [maximalBlocksNat, hx]
        have hlen : rest.length ≤ n := by
          simp only [List.length_cons] at hl
          omega
        rw [h1, h2]
        exact ih rest hlen

theorem fillLine_blocks (l : List Int) :
    fillLine l = natsToInts (maximalBlocksNat l) ∨
    fillLine l = natsToInts (maximalBlocksNat l) ++ [0] :=
  fillLine_blocks_aux l.length l (Nat.le_refl _)

/-- Every maximal-block length is positive. -/
theorem maximalBlocksNat_pos_aux :
    ∀ (n : Nat) (l : List Int), l.length ≤ n →
      ∀ k ∈ maximalBlocksNat l, 0 < k := by
  intro n
  induction n with
  | zero =>
    intro l hl
    have : l = [] := List.eq_nil_of_length_eq_zero (Nat.le_zero.mp hl)
    subst this
    simp [maximalBlocksNat]
  | succ n ih =>
    intro l hl
    match l with
    | [] => simp [maximalBlocksNat]
    | x :: rest =>
      by_cases hx : x = 1
      · rw [show maximalBlocksNat (x :: rest) =
            (countRun rest + 1) :: maximalBlocksNat (dropRun rest) by
            simp [maximalBlocksNat, hx]]
        intro k hk
        rcases List.mem_cons.mp hk with hk | hk
        · omega
        · have hlen : (dropRun rest).length ≤ n := by
            have := dropRun_length_le rest
            simp only [List.length_cons] at hl
            omega
          exact ih (dropRun rest) hlen k hk
      · rw [show maximalBlocksNat (x :: rest) = maximalBlocksNat rest by
            simp [maximalBlocksNat, hx]]
        intro k hk
        have hlen : rest.length ≤ n := by
          simp only [List.length_cons] at hl
          omega
        exact ih rest hlen k hk

theorem maximalBlocksNat_pos (l : List Int) : ∀ k ∈ maximalBlocksNat l, 0 < k :=
  maximalBlocksNat_pos_aux l.length l (Nat.le_refl _)

/-- C8: for a 0/1 board with positive dimensions, the hint model built by
`nonogram_hints_create` stores, for each row, exactly the lengths of the
maximal contiguous blocks of `1`-cells of that row in left-to-right order —
followed only by the terminating `0` of the `calloc`-zeroed array — and
every stored run is positive (no zero-length run precedes the terminator);
symmetrically for each column. -/
theorem c8_theorem (board : List (List Int)) (rows_count cols_count : Nat)
    (hints : NonoGramHints)
    (hr : 0 < rows_count) (hc : 0 < cols_count)
    (h01 : ∀ r c, r < rows_count → c < cols_count →
      cellAt board r c = 0 ∨ cellAt board r c = 1)
    (hcreate : nonogram_hints_create board rows_count cols_count = some hints) :
    (∀ r < rows_count,
      (nthD hints.rows r [] =
        natsToInts (maximalBlocksNat (getRow board r cols_count)) ∨
       nthD hints.rows r [] =
        natsToInts (maximalBlocksNat (getRow board r cols_count)) ++ [0]) ∧
      (∀ k ∈ maximalBlocksNat (getRow board r cols_count), 0 < k)) ∧
    (∀ c < cols_count,
      (nthD hints.cols c [] =
        natsToInts (maximalBlocksNat (getCol board c rows_count)) ∨
       nthD hints.cols c [] =
        natsToInts (maximalBlocksNat (getCol board c rows_count)) ++ [0]) ∧
      (∀ k ∈ maximalBlocksNat (getCol board c rows_count), 0 < k)) := by
  have hnz : ¬ (rows_count = 0 ∨ cols_count = 0) := by omega
  unfold nonogram_hints_create _nonogram_hints_new at hcreate
  rw [if_neg hnz] at hcreate
  simp only [Option.some.injEq] at hcreate
  subst hcreate
  constructor
  · intro r hrlt
    constructor
    · have : nthD ((List.range rows_count).map fun r =>
          fillLine (getRow board r cols_count)) r [] =
          fillLine (getRow board r cols_count) := by
        rw [nthD_range_map, if_pos hrlt]
      rw [this]
      exact fillLine_blocks _
    · exact maximalBlocksNat_pos _
  · intro c hclt
    constructor
    · have : nthD ((List.range cols_count).map fun c =>
          fillLine (getCol board c rows_count)) c [] =
          fillLine (getCol board c rows_count) := by
        rw [nthD_range_map, if_pos hclt]
      rw [this]
      exact fillLine_blocks _
    · exact maximalBlocksNat_pos _

/-- C8 (witness): the theorem applied to the concrete 0/1 board
`[[1,1],[0,1]]`: its derived hints are `rows = [[2],[1]]`,
`cols = [[1,0],[2]]`, and row 1's stored line `[1]` is exactly its maximal
block list. -/
theorem c8_witness :
    nonogram_hints_create [[1, 1], [0, 1]] 2 2 =
      some ⟨2, 2, [[2], [1]], [[1, 0], [2]]⟩ ∧
    (nthD (⟨2, 2, [[2], [1]], [[1, 0], [2]]⟩ : NonoGramHints).rows 1 [] =
      natsToInts (maximalBlocksNat (getRow [[1, 1], [0, 1]] 1 2)) ∨
     nthD (⟨2, 2, [[2], [1]], [[1, 0], [2]]⟩ : NonoGramHints).rows 1 [] =
      natsToInts (maximalBlocksNat (getRow [[1, 1], [0, 1]] 1 2)) ++ [0]) := by
  constructor
  · decide
  · exact ((c8_theorem [[1, 1], [0, 1]] 2 2 ⟨2, 2, [[2], [1]], [[1, 0], [2]]⟩
      (by decide) (by decide)
      (by
        intro r c hr hc
        interval_cases r <;> interval_cases c <;> decide)
      (by decide)).1 1 (by decide)).1

end Nonogram

namespace Nonogram

/-! ## C10: the recursion terminates on every valid cursor -/

/-- Advancing the cursor: from a valid cursor `(row, col)` with `row < rows`,
the next cursor is valid and its row-major index is one larger. -/
theorem nextCursor_spec (rows cols row col : Nat)
    (hrow : row < rows) (hcol : col < cols) :
    nextRow cols row col ≤ rows ∧ nextCol cols col < cols ∧
      (nextRow cols row col) * cols + nextCol cols col = row * cols + col + 1 := by
  have hcols : 0 < cols := Nat.pos_of_ne_zero (by omega)
  unfold nextRow nextCol
  by_cases hc : col = cols - 1
  · rw [if_pos hc]
    have h1 : (col + 1) % cols = 0 := by
      have : col + 1 = cols := by omega
      simp [this]
    refine ⟨by omega, by rw [h1]; omega, ?_⟩
    rw [h1]
    have : (row + 1) * cols = row * cols + cols := by ring
    omega
  · rw [if_neg hc]
    have h1 : (col + 1) % cols = col + 1 := Nat.mod_eq_of_lt (by omega)
    exact ⟨by omega, by rw [h1]; omega, by rw [h1]; omega⟩

/-- The row-major index of a valid cursor is below `rows * cols`. -/
theorem cursor_lt (rows cols row col : Nat) (hrow : row < rows) (hcol : col < cols) :
    row * cols + col < rows * cols := by
  calc row * cols + col < row * cols + cols := by omega
    _ = (row + 1) * cols := by ring
    _ ≤ rows * cols := Nat.mul_le_mul_right _ (by omega)

/-- Fuel sufficiency: with more fuel than the number of remaining cells,
`solveRecF` returns an answer. -/
theorem solveRecF_isSome (hints : NonoGramHints) (rows cols : Nat) :
    ∀ (fuel : Nat) (b : List (List Int)) (row col : Nat),
      row ≤ rows → col < cols → rows * cols - (row * cols + col) < fuel →
      (solveRecF hints rows cols fuel b row col).isSome = true := by
  intro fuel
  induction fuel with
  | zero =>
    intro b row col h1 h2 h3
    omega
  | succ fuel ih =>
    intro b row col h1 h2 h3
    by_cases hrow : row = rows
    · simp [solveRecF, hrow]
    · have hrowlt : row < rows := lt_of_le_of_ne h1 hrow
      obtain ⟨hnr, hnc, hidx⟩ := nextCursor_spec rows cols row col hrowlt h2
      have hklt : row * cols + col < rows * cols := cursor_lt rows cols row col hrowlt h2
      have hmeas : rows * cols - (nextRow cols row col * cols + nextCol cols col) < fuel := by
        rw [hidx]
        omega
      simp only [solveRecF, if_neg hrow]
      by_cases hcell : cellAt b row col = 1
      · rw [if_pos hcell]
        exact ih b _ _ hnr hnc hmeas
      · rw [if_neg hcell]
        have hsome1 := ih (setCell b row col 1) _ _ hnr hnc hmeas
        by_cases hv1 : is_valid_move (setCell b row col 1) row col hints
        · rw [if_pos hv1]
          obtain ⟨res1, hres1⟩ := Option.isSome_iff_exists.mp hsome1
          rw [hres1]
          obtain ⟨t1, b1⟩ := res1
          cases t1
          · simp only
            have hsome0 := ih (setCell b1 row col 0) _ _ hnr hnc hmeas
            by_cases hv0 : is_valid_move (setCell b1 row col 0) row col hints
            · rw [if_pos hv0]
              obtain ⟨res0, hres0⟩ := Option.isSome_iff_exists.mp hsome0
              rw [hres0]
              obtain ⟨t0, b0⟩ := res0
              cases t0 <;> simp
            · rw [if_neg hv0]
              simp
          · simp
        · rw [if_neg hv1]
          simp only
          have hsome0 := ih (setCell (setCell b row col 1) row col 0) _ _ hnr hnc hmeas
          by_cases hv0 : is_valid_move (setCell (setCell b row col 1) row col 0) row col hints
          · rw [if_pos hv0]
            obtain ⟨res0, hres0⟩ := Option.isSome_iff_exists.mp hsome0
            rw [hres0]
            obtain ⟨t0, b0⟩ := res0
            cases t0 <;> simp
          · rw [if_neg hv0]
            simp

/-- C10: `solve_recursive` returns (`true` or `false`) on every board and
every valid cursor position — the recursion is finite because each call
strictly advances the row-major cursor, so the fixed fuel
`rows * cols + 1` of the wrapper always suffices. -/
theorem c10_theorem (hints : NonoGramHints) (rows cols : Nat)
    (board : List (List Int)) (row col : Nat)
    (h1 : row ≤ rows) (h2 : col < cols) :
    (solve_recursive hints rows cols board row col).isSome = true := by
  unfold solve_recursive
  apply solveRecF_isSome hints rows cols _ board row col h1 h2
  omega

/-- C10 (witness): the theorem applied to the 1×1 instance at cursor (0,0). -/
theorem c10_witness :
    (0 : Nat) ≤ 1 ∧ (0 : Nat) < 1 ∧
    (solve_recursive ⟨1, 1, [[1]], [[1]]⟩ 1 1 [[-1]] 0 0).isSome = true :=
  ⟨by decide, by decide,
    c10_theorem ⟨1, 1, [[1]], [[1]]⟩ 1 1 [[-1]] 0 0 (by decide) (by decide)⟩

end Nonogram

namespace Nonogram

/-! ## C6: already-Filled cells are never reassigned -/

theorem length_setNth {α : Type} :
    ∀ (l : List α) (i : Nat) (v : α), (setNth l i v).length = l.length := by
  intro l
  induction l with
  | nil => intro i v; rfl
  | cons x l ih =>
    intro i v
    cases i with
    | zero => rfl
    | succ i => simp [setNth, ih]

theorem setNth_oob {α : Type} :
    ∀ (l : List α) (i : Nat) (v : α), l.length ≤ i → setNth l i v = l := by
  intro l
  induction l with
  | nil => intro i v _; rfl
  | cons x l ih =>
    intro i v hi
    cases i with
    | zero => simp at hi
    | succ i =>
      simp only [List.length_cons] at hi
      simp [setNth, ih i v (by omega)]

theorem nthD_oob {α : Type} :
    ∀ (l : List α) (n : Nat) (d : α), l.length ≤ n → nthD l n d = d := by
  intro l
  induction l with
  | nil => intro n d _; cases n <;> rfl
  | cons x l ih =>
    intro n d hn
    cases n with
    | zero => simp at hn
    | succ n =>
      simp only [List.length_cons] at hn
      simp [nthD, ih n d (by omega)]

theorem nthD_setNth_ne {α : Type} :
    ∀ (l : List α) (i j : Nat) (v : α) (d : α), i ≠ j →
      nthD (setNth l i v) j d = nthD l j d := by
  intro l
  induction l with
  | nil => intro i j v d _; rfl
  | cons x l ih =>
    intro i j v d hij
    cases i with
    | zero =>
      cases j with
      | zero => exact absurd rfl hij
      | succ j => simp [setNth, nthD]
    | succ i =>
      cases j with
      | zero => simp [setNth, nthD]
      | succ j => simp [setNth, nthD, ih i j v d (by omega)]

theorem nthD_setNth_self {α : Type} :
    ∀ (l : List α) (i : Nat) (v : α) (d : α), i < l.length →
      nthD (setNth l i v) i d = v := by
  intro l
  induction l with
  | nil => intro i v d h; simp at h
  | cons x l ih =>
    intro i v d hi
    cases i with
    | zero => rfl
    | succ i =>
      simp only [List.length_cons] at hi
      simp [setNth, nthD, ih i v d (by omega)]

/-- Writing one cell leaves every other cell unchanged. -/
theorem cellAt_setCell_ne (b : List (List Int)) (row col r c : Nat) (v : Int)
    (h : r ≠ row ∨ c ≠ col) :
    cellAt (setCell b row col v) r c = cellAt b r c := by
  unfold cellAt setCell
  rcases h with h | h
  · rw [nthD_setNth_ne _ row r _ _ (fun he => h he.symm)]
  · by_cases hrow : r = row
    · subst hrow
      by_cases hlen : r < b.length
      · rw [nthD_setNth_self _ _ _ _ hlen,
          nthD_setNth_ne _ col c _ _ (fun he => h he.symm)]
      · rw [setNth_oob _ _ _ (by omega)]
    · rw [nthD_setNth_ne _ row r _ _ (fun he => hrow he.symm)]

/-- C6 (amended): a cell that is already `Filled` when the solver starts is
committed — whatever search happens, the cell still holds `Filled` in the
returned board.  (A cell that starts `Empty` enjoys no such protection: the
skip test of `solve_recursive` is `board[row][col] == 1` only, and
`c6_counterexample` shows an `Empty` seed being overwritten.) -/
theorem c6_theorem (hints : NonoGramHints) (rows cols : Nat) :
    ∀ (fuel : Nat) (b : List (List Int)) (row col : Nat) (t : Bool)
      (res : List (List Int)) (r c : Nat),
      cellAt b r c = 1 →
      solveRecF hints rows cols fuel b row col = some (t, res) →
      cellAt res r c = 1 := by
  intro fuel
  induction fuel with
  | zero =>
    intro b row col t res r c _ hsolve
    simp [solveRecF] at hsolve
  | succ fuel ih =>
    intro b row col t res r c hcell hsolve
    by_cases hrow : row = rows
    · simp only [solveRecF, if_pos hrow, Option.some.injEq, Prod.mk.injEq] at hsolve
      rw [← hsolve.2]
      exact hcell
    · simp only [solveRecF, if_neg hrow] at hsolve
      by_cases hcur : cellAt b row col = 1
      · rw [if_pos hcur] at hsolve
        exact ih _ _ _ _ _ _ _ hcell hsolve
      · rw [if_neg hcur] at hsolve
        have hne : r ≠ row ∨ c ≠ col := by
          by_contra hcon
          push_neg at hcon
          obtain ⟨h1, h2⟩ := hcon
          subst h1; subst h2
          exact hcur hcell
        have hstep : ∀ (bmid : List (List Int)), cellAt bmid r c = 1 →
            (match
              (if is_valid_move (setCell bmid row col 0) row col hints then
                solveRecF hints rows cols fuel (setCell bmid row col 0)
                  (nextRow cols row col) (nextCol cols col)
              else some (false, setCell bmid row col 0)) with
            | none => none
            | some (true, b') => some (true, b')
            | some (false, b0done) =>
                some (false, setCell b0done row col (-1))) = some (t, res) →
            cellAt res r c = 1 := by
          intro bmid hmid hmatch
          have hb0 : cellAt (setCell bmid row col 0) r c = 1 := by
            rw [cellAt_setCell_ne _ _ _ _ _ _ hne]; exact hmid
          by_cases hv0 : is_valid_move (setCell bmid row col 0) row col hints
          · rw [if_pos hv0] at hmatch
            cases hchild0 : solveRecF hints rows cols fuel (setCell bmid row col 0)
                (nextRow cols row col) (nextCol cols col) with
            | none => rw [hchild0] at hmatch; simp at hmatch
            | some p0 =>
              obtain ⟨t0, b0res⟩ := p0
              have hkeep : cellAt b0res r c = 1 := ih _ _ _ _ _ _ _ hb0 hchild0
              rw [hchild0] at hmatch
              cases t0
              · simp only [Option.some.injEq, Prod.mk.injEq] at hmatch
                rw [← hmatch.2, cellAt_setCell_ne _ _ _ _ _ _ hne]
                exact hkeep
              · simp only [Option.some.injEq, Prod.mk.injEq] at hmatch
                rw [← hmatch.2]
                exact hkeep
          · rw [if_neg hv0] at hmatch
            simp only [Option.some.injEq, Prod.mk.injEq] at hmatch
            rw [← hmatch.2, cellAt_setCell_ne _ _ _ _ _ _ hne,
              cellAt_setCell_ne _ _ _ _ _ _ hne]
            exact hmid
        have hb1 : cellAt (setCell b row col 1) r c = 1 := by
          rw [cellAt_setCell_ne _ _ _ _ _ _ hne]; exact hcell
        by_cases hv1 : is_valid_move (setCell b row col 1) row col hints
        · rw [if_pos hv1] at hsolve
          cases hchild1 : solveRecF hints rows cols fuel (setCell b row col 1)
              (nextRow cols row col) (nextCol cols col) with
          | none => rw [hchild1] at hsolve; simp at hsolve
          | some p1 =>
            obtain ⟨t1, b1res⟩ := p1
            have hkeep1 : cellAt b1res r c = 1 := ih _ _ _ _ _ _ _ hb1 hchild1
            rw [hchild1] at hsolve
            cases t1
            · exact hstep b1res hkeep1 hsolve
            · simp only [Option.some.injEq, Prod.mk.injEq] at hsolve
              rw [← hsolve.2]
              exact hkeep1
        · rw [if_neg hv1] at hsolve
          exact hstep (setCell b row col 1) hb1 hsolve

/-- C6 (witness): on the 1×1 instance starting from the pre-seeded board
`[[1]]` (its cell already `Filled`), the solver returns with the cell still
`Filled`. -/
theorem c6_witness :
    cellAt [[1]] 0 0 = 1 ∧ cellAt [[1]] 0 0 = 1 :=
  ⟨by decide,
    c6_theorem ⟨1, 1, [[1]], [[1]]⟩ 1 1 2 [[1]] 0 0 true [[1]] 0 0
      (by decide) (by decide)⟩

end Nonogram

namespace Nonogram

/-! ## C9: search-state invariant and restoration on failure -/

theorem nthD_mem {α : Type} :
    ∀ (l : List α) (n : Nat) (d : α), n < l.length → nthD l n d ∈ l := by
  intro l
  induction l with
  | nil => intro n d h; simp at h
  | cons x l ih =>
    intro n d hn
    cases n with
    | zero => simp [nthD]
    | succ n =>
      simp only [List.length_cons] at hn
      simp [nthD]
      right
      exact ih n d (by omega)

theorem nthD_replicate {α : Type} (x : α) :
    ∀ (n i : Nat) (d : α), i < n → nthD (List.replicate n x) i d = x := by
  intro n
  induction n with
  | zero => intro i d h; omega
  | succ n ih =>
    intro i d hi
    cases i with
    | zero => rfl
    | succ i => simpa [List.replicate, nthD] using ih i d (by omega)

theorem mem_setNth {α : Type} :
    ∀ (l : List α) (i : Nat) (v : α) (x : α), x ∈ setNth l i v → x ∈ l ∨ x = v := by
  intro l
  induction l with
  | nil => intro i v x h; simp [setNth] at h
  | cons y l ih =>
    intro i v x hx
    cases i with
    | zero =>
      rcases List.mem_cons.mp hx with h | h
      · right; exact h
      · left; exact List.mem_cons_of_mem _ h
    | succ i =>
      rcases List.mem_cons.mp hx with h | h
      · left; exact h ▸ List.mem_cons_self _ _
      · rcases ih i v x h with h | h
        · left; exact List.mem_cons_of_mem _ h
        · right; exact h

theorem setNth_setNth {α : Type} :
    ∀ (l : List α) (i : Nat) (v w : α), setNth (setNth l i v) i w = setNth l i w := by
  intro l
  induction l with
  | nil => intro i v w; rfl
  | cons x l ih =>
    intro i v w
    cases i with
    | zero => rfl
    | succ i => simp [setNth, ih]

theorem setNth_self {α : Type} :
    ∀ (l : List α) (i : Nat) (d : α), setNth l i (nthD l i d) = l := by
  intro l
  induction l with
  | nil => intro i d; rfl
  | cons x l ih =>
    intro i d
    cases i with
    | zero => rfl
    | succ i => simp [setNth, nthD, ih]

/-- Overwriting the same cell twice keeps only the second write. -/
theorem setCell_setCell (b : List (List Int)) (r c : Nat) (v w : Int) :
    setCell (setCell b r c v) r c w = setCell b r c w := by
  unfold setCell
  by_cases hr : r < b.length
  · rw [nthD_setNth_self _ _ _ _ hr, setNth_setNth, setNth_setNth]
  · rw [setNth_oob b r (setNth (nthD b r []) c v) (by omega)]

/-- Writing back the value a cell already holds is the identity. -/
theorem setCell_id (b : List (List Int)) (r c : Nat) (v : Int)
    (h : cellAt b r c = v) : setCell b r c v = b := by
  unfold cellAt at h
  unfold setCell
  rw [← h, setNth_self, setNth_self]

theorem cellAt_setCell_self (b : List (List Int)) (r c : Nat) (v : Int)
    (hr : r < b.length) (hc : c < (nthD b r []).length) :
    cellAt (setCell b r c v) r c = v := by
  unfold cellAt setCell
  rw [nthD_setNth_self _ _ _ _ hr, nthD_setNth_self _ _ _ _ hc]

/-- The board has exactly `rows` rows of exactly `cols` cells. -/
def BoardShape (rows cols : Nat) (b : List (List Int)) : Prop :=
  b.length = rows ∧ ∀ l ∈ b, l.length = cols

theorem boardShape_init (rows cols : Nat) :
    BoardShape rows cols (initBoardUnknown rows cols) := by
  constructor
  · simp [initBoardUnknown]
  · intro l hl
    rw [List.eq_of_mem_replicate hl]
    simp

theorem boardShape_setCell (rows cols : Nat) (b : List (List Int)) (r c : Nat) (v : Int)
    (h : BoardShape rows cols b) : BoardShape rows cols (setCell b r c v) := by
  by_cases hr : r < b.length
  · obtain ⟨hlen, hmem⟩ := h
    constructor
    · rw [show (setCell b r c v).length = b.length from length_setNth _ _ _, hlen]
    · intro l hl
      rcases mem_setNth _ _ _ _ hl with hl | hl
      · exact hmem l hl
      · subst hl
        rw [length_setNth]
        exact hmem _ (nthD_mem _ _ _ hr)
  · unfold setCell
    rw [setNth_oob _ _ _ (by omega)]
    exact h

end Nonogram

namespace Nonogram

/-- A row-major cell index with an in-range column offset determines the
cell coordinates. -/
theorem cursor_idx_inj (cols r c row col : Nat) (hc : c < cols) (hcol : col < cols)
    (h : r * cols + c = row * cols + col) : r = row ∧ c = col := by
  have hcols : 0 < cols := by omega
  rw [Nat.mul_comm r cols, Nat.mul_comm row cols] at h
  have e1 : (c + cols * r) / cols = c / cols + r := Nat.add_mul_div_left c r hcols
  have e2 : (col + cols * row) / cols = col / cols + row := Nat.add_mul_div_left col row hcols
  rw [Nat.div_eq_of_lt hc] at e1
  rw [Nat.div_eq_of_lt hcol] at e2
  have hsame : c + cols * r = col + cols * row := by omega
  rw [hsame] at e1
  have hr : r = row := by omega
  subst hr
  exact ⟨rfl, by omega⟩

theorem cellAt_init (rows cols r c : Nat) (hr : r < rows) (hc : c < cols) :
    cellAt (initBoardUnknown rows cols) r c = -1 := by
  unfold cellAt initBoardUnknown
  rw [nthD_replicate _ _ _ _ hr, nthD_replicate _ _ _ _ hc]

/-- The search states `solve_recursive` is invoked on when `solve_nonogram`
runs: the root call on the all-Unknown board, plus, for a reachable state,
the states of the three recursive call sites of nonogram-solve.c (lines 201,
207, 215).  The board of the `Empty`-branch call is `setCell b row col 0`:
the C reaches that call either when the `Filled` branch was pruned (board
still `b` with the cursor cell holding the tentative `1`, then overwritten
with `0`) or when the `Filled` subtree failed, in which case
`solveRecF_restores` shows the subtree handed back exactly the board it was
given, and overwriting the cursor cell gives the same board. -/
inductive Reach (hints : NonoGramHints) (rows cols : Nat) :
    List (List Int) → Nat → Nat → Prop
  | init : Reach hints rows cols (initBoardUnknown rows cols) 0 0
  | skip (b : List (List Int)) (row col : Nat) :
      Reach hints rows cols b row col → row < rows → col < cols →
      cellAt b row col = 1 →
      Reach hints rows cols b (nextRow cols row col) (nextCol cols col)
  | fill (b : List (List Int)) (row col : Nat) :
      Reach hints rows cols b row col → row < rows → col < cols →
      cellAt b row col ≠ 1 →
      is_valid_move (setCell b row col 1) row col hints = true →
      Reach hints rows cols (setCell b row col 1)
        (nextRow cols row col) (nextCol cols col)
  | empty (b : List (List Int)) (row col : Nat) :
      Reach hints rows cols b row col → row < rows → col < cols →
      cellAt b row col ≠ 1 →
      is_valid_move (setCell b row col 0) row col hints = true →
      Reach hints rows cols (setCell b row col 0)
        (nextRow cols row col) (nextCol cols col)

/-- Invariant of every reachable search state: the board is well-shaped, the
cells strictly before the cursor (row-major) are committed, and the cells
from the cursor on are still Unknown. -/
theorem reach_inv (hints : NonoGramHints) (rows cols : Nat) :
    ∀ (b : List (List Int)) (row col : Nat), Reach hints rows cols b row col →
      BoardShape rows cols b ∧
      (∀ r c, r < rows → c < cols → r * cols + c < row * cols + col →
        cellAt b r c ≠ -1) ∧
      (∀ r c, r < rows → c < cols → row * cols + col ≤ r * cols + c →
        cellAt b r c = -1) := by
  intro b row col hreach
  induction hreach with
  | init =>
    refine ⟨boardShape_init rows cols, ?_, ?_⟩
    · intro r c _ _ hk; omega
    · intro r c hr hc _; exact cellAt_init rows cols r c hr hc
  | skip b row col hre hrow hcol hcell ih =>
    have hcontra := ih.2.2 row col hrow hcol (Nat.le_refl _)
    rw [hcell] at hcontra
    exact absurd hcontra (by decide)
  | fill b row col hre hrow hcol hne hv ih =>
    obtain ⟨hshape, hpre, hsuf⟩ := ih
    obtain ⟨hnr, hnc, hidx⟩ := nextCursor_spec rows cols row col hrow hcol
    refine ⟨boardShape_setCell _ _ _ _ _ _ hshape, ?_, ?_⟩
    · intro r c hr hc hk
      rw [hidx] at hk
      by_cases heq : r = row ∧ c = col
      · obtain ⟨e1, e2⟩ := heq
        subst e1; subst e2
        rw [cellAt_setCell_self _ _ _ _ (by rw [hshape.1]; exact hrow)
          (by rw [hshape.2 _ (nthD_mem _ _ _ (by rw [hshape.1]; exact hrow))]
              exact hcol)]
        decide
      · have hne2 : r ≠ row ∨ c ≠ col := by tauto
        rw [cellAt_setCell_ne _ _ _ _ _ _ hne2]
        apply hpre r c hr hc
        have hnidx : r * cols + c ≠ row * cols + col := fun hh =>
          heq (cursor_idx_inj cols r c row col hc hcol hh)
        omega
    · intro r c hr hc hk
      rw [hidx] at hk
      have hne2 : r ≠ row ∨ c ≠ col := by
        by_contra hcon
        push_neg at hcon
        obtain ⟨e1, e2⟩ := hcon
        subst e1; subst e2
        omega
      rw [cellAt_setCell_ne _ _ _ _ _ _ hne2]
      exact hsuf r c hr hc (by omega)
  | empty b row col hre hrow hcol hne hv ih =>
    obtain ⟨hshape, hpre, hsuf⟩ := ih
    obtain ⟨hnr, hnc, hidx⟩ := nextCursor_spec rows cols row col hrow hcol
    refine ⟨boardShape_setCell _ _ _ _ _ _ hshape, ?_, ?_⟩
    · intro r c hr hc hk
      rw [hidx] at hk
      by_cases heq : r = row ∧ c = col
      · obtain ⟨e1, e2⟩ := heq
        subst e1; subst e2
        rw [cellAt_setCell_self _ _ _ _ (by rw [hshape.1]; exact hrow)
          (by rw [hshape.2 _ (nthD_mem _ _ _ (by rw [hshape.1]; exact hrow))]
              exact hcol)]
        decide
      · have hne2 : r ≠ row ∨ c ≠ col := by tauto
        rw [cellAt_setCell_ne _ _ _ _ _ _ hne2]
        apply hpre r c hr hc
        have hnidx : r * cols + c ≠ row * cols + col := fun hh =>
          heq (cursor_idx_inj cols r c row col hc hcol hh)
        omega
    · intro r c hr hc hk
      rw [hidx] at hk
      have hne2 : r ≠ row ∨ c ≠ col := by
        by_contra hcon
        push_neg at hcon
        obtain ⟨e1, e2⟩ := hcon
        subst e1; subst e2
        omega
      rw [cellAt_setCell_ne _ _ _ _ _ _ hne2]
      exact hsuf r c hr hc (by omega)

/-- A failing `solve_recursive` call on a board whose cells from the cursor
on are Unknown hands back exactly the board it was given: every tentative
assignment has been rolled back to `-1`. -/
theorem solveRecF_restores (hints : NonoGramHints) (rows cols : Nat) :
    ∀ (fuel : Nat) (b : List (List Int)) (row col : Nat) (res : List (List Int)),
      row ≤ rows → col < cols →
      (∀ r c, r < rows → c < cols → row * cols + col ≤ r * cols + c →
        cellAt b r c = -1) →
      solveRecF hints rows cols fuel b row col = some (false, res) →
      res = b := by
  intro fuel
  induction fuel with
  | zero =>
    intro b row col res _ _ _ hsolve
    simp [solveRecF] at hsolve
  | succ fuel ih =>
    intro b row col res h1 h2 hsuf hsolve
    by_cases hrow : row = rows
    · simp only [solveRecF, if_pos hrow, Option.some.injEq, Prod.mk.injEq] at hsolve
      exact hsolve.2.symm
    · have hrowlt : row < rows := lt_of_le_of_ne h1 hrow
      obtain ⟨hnr, hnc, hidx⟩ := nextCursor_spec rows cols row col hrowlt h2
      have hcur : cellAt b row col = -1 := hsuf row col hrowlt h2 (Nat.le_refl _)
      have hcell : ¬ cellAt b row col = 1 := by rw [hcur]; decide
      simp only [solveRecF, if_neg hrow, if_neg hcell] at hsolve
      have hsufv : ∀ v : Int, ∀ r c, r < rows → c < cols →
          (nextRow cols row col) * cols + nextCol cols col ≤ r * cols + c →
          cellAt (setCell b row col v) r c = -1 := by
        intro v r c hr hc hk
        rw [hidx] at hk
        have hne2 : r ≠ row ∨ c ≠ col := by
          by_contra hcon
          push_neg at hcon
          obtain ⟨e1, e2⟩ := hcon
          subst e1; subst e2
          omega
        rw [cellAt_setCell_ne _ _ _ _ _ _ hne2]
        exact hsuf r c hr hc (by omega)
      have hzero : ∀ (bmid : List (List Int)),
          setCell bmid row col 0 = setCell b row col 0 →
          (match
            (if is_valid_move (setCell bmid row col 0) row col hints then
              solveRecF hints rows cols fuel (setCell bmid row col 0)
                (nextRow cols row col) (nextCol cols col)
            else some (false, setCell bmid row col 0)) with
          | none => none
          | some (true, b') => some (true, b')
          | some (false, b0done) =>
              some (false, setCell b0done row col (-1))) = some (false, res) →
          res = b := by
        intro bmid hcoll hmatch
        rw [hcoll] at hmatch
        by_cases hv0 : is_valid_move (setCell b row col 0) row col hints
        · rw [if_pos hv0] at hmatch
          cases hchild0 : solveRecF hints rows cols fuel (setCell b row col 0)
              (nextRow cols row col) (nextCol cols col) with
          | none => rw [hchild0] at hmatch; simp at hmatch
          | some p0 =>
            obtain ⟨t0, b0res⟩ := p0
            rw [hchild0] at hmatch
            cases t0
            · simp only [Option.some.injEq, Prod.mk.injEq] at hmatch
              have hrest0 : b0res = setCell b row col 0 :=
                ih _ _ _ _ hnr hnc (hsufv 0) hchild0
              rw [← hmatch.2, hrest0, setCell_setCell]
              exact setCell_id b row col (-1) hcur
            · simp at hmatch
        · rw [if_neg hv0] at hmatch
          simp only [Option.some.injEq, Prod.mk.injEq] at hmatch
          rw [← hmatch.2, setCell_setCell]
          exact setCell_id b row col (-1) hcur
      by_cases hv1 : is_valid_move (setCell b row col 1) row col hints
      · rw [if_pos hv1] at hsolve
        cases hchild1 : solveRecF hints rows cols fuel (setCell b row col 1)
            (nextRow cols row col) (nextCol cols col) with
        | none => rw [hchild1] at hsolve; simp at hsolve
        | some p1 =>
          obtain ⟨t1, b1res⟩ := p1
          rw [hchild1] at hsolve
          cases t1
          · have hrest1 : b1res = setCell b row col 1 :=
              ih _ _ _ _ hnr hnc (hsufv 1) hchild1
            exact hzero b1res (by rw [hrest1, setCell_setCell]) hsolve
          · simp at hsolve
      · rw [if_neg hv1] at hsolve
        exact hzero (setCell b row col 1) (setCell_setCell b row col 1 0) hsolve

/-- C9: in every reachable search state with the cursor at row-major
position `k = row * cols + col`, every cell strictly before `k` is committed
(not Unknown) and every cell strictly after `k` is still Unknown; and when a
recursive call returns failure, every cell from its cursor position onward
is Unknown again in the board it hands back (it returns exactly the board it
received). -/
theorem c9_theorem (hints : NonoGramHints) (rows cols : Nat) :
    (∀ (b : List (List Int)) (row col : Nat), Reach hints rows cols b row col →
      (∀ r c, r < rows → c < cols → r * cols + c < row * cols + col →
        cellAt b r c ≠ -1) ∧
      (∀ r c, r < rows → c < cols → row * cols + col < r * cols + c →
        cellAt b r c = -1)) ∧
    (∀ (fuel : Nat) (b : List (List Int)) (row col : Nat) (res : List (List Int)),
      row ≤ rows → col < cols →
      (∀ r c, r < rows → c < cols → row * cols + col ≤ r * cols + c →
        cellAt b r c = -1) →
      solveRecF hints rows cols fuel b row col = some (false, res) →
      ∀ r c, r < rows → c < cols → row * cols + col ≤ r * cols + c →
        cellAt res r c = -1) := by
  constructor
  · intro b row col hreach
    obtain ⟨_, hpre, hsuf⟩ := reach_inv hints rows cols b row col hreach
    exact ⟨hpre, fun r c hr hc hk => hsuf r c hr hc (Nat.le_of_lt hk)⟩
  · intro fuel b row col res h1 h2 hsuf hsolve r c hr hc hk
    rw [solveRecF_restores hints rows cols fuel b row col res h1 h2 hsuf hsolve]
    exact hsuf r c hr hc hk

/-- C9 (witness): both parts applied concretely — the invariant at the root
state of the 2×2 instance, and restoration on the failing 1×1 instance with
hint `[2]`, whose search returns the all-Unknown board unchanged. -/
theorem c9_witness :
    cellAt (initBoardUnknown 2 2) 1 1 = -1 ∧ cellAt [[-1]] 0 0 = -1 := by
  constructor
  · exact ((c9_theorem ⟨2, 2, [[1], [1]], [[1], [1]]⟩ 2 2).1 _ 0 0 Reach.init).2
      1 1 (by decide) (by decide) (by decide)
  · exact (c9_theorem ⟨1, 1, [[2]], [[2]]⟩ 1 1).2 2 [[-1]] 0 0 [[-1]]
      (by decide) (by decide)
      (by
        intro r c hr hc _
        interval_cases r <;> interval_cases c <;> decide)
      (by decide) 0 0 (by decide) (by decide) (by decide)

end Nonogram

namespace Nonogram

/-! ## C4: round-trip through the canonical textual form

`nonogram_hints_to_string` (nonogram.c:250-307) renders
`{"rows":[[...],...],"cols":[[...],...]}`, stopping each hint line at its
first `0` (`if (!hints->rows[row][index]) break`) and bounding the loop by
the line's allocated extent.  The text is then decoded by `parse_json`
(the hint reader of the companion translation unit), which parses the JSON
with the external cJSON library and stores, for each `rows`/`cols` array
entry, its numbers followed by a terminating `0`. -/

/-- Digit characters, written out (the `snprintf("%d")` alphabet). -/
def digitChar (d : Nat) : Char :=
  match d with
  | 0 => '0'
  | 1 => '1'
  | 2 => '2'
  | 3 => '3'
  | 4 => '4'
  | 5 => '5'
  | 6 => '6'
  | 7 => '7'
  | 8 => '8'
  | _ => '9'

def isDigitChar (c : Char) : Bool :=
  match c with
  | '0' => true
  | '1' => true
  | '2' => true
  | '3' => true
  | '4' => true
  | '5' => true
  | '6' => true
  | '7' => true
  | '8' => true
  | '9' => true
  | _ => false

def digitVal (c : Char) : Nat :=
  match c with
  | '0' => 0
  | '1' => 1
  | '2' => 2
  | '3' => 3
  | '4' => 4
  | '5' => 5
  | '6' => 6
  | '7' => 7
  | '8' => 8
  | '9' => 9
  | _ => 0

/-- Decimal rendering of a natural number (`snprintf(buffer, _, "%d", v)`
for the nonnegative hint values). -/
def natDigits (n : Nat) : List Char :=
  if n < 10 then [digitChar n]
  else natDigits (n / 10) ++ [digitChar (n % 10)]
termination_by n
decreasing_by exact Nat.div_lt_self (by omega) (by omega)

/-- Decimal rendering of a C `int` hint value. -/
def intDigits (v : Int) : List Char :=
  if v < 0 then '-' :: natDigits (-v).toNat else natDigits v.toNat

/-- Comma-separated concatenation — the `index > 0 ? "," : ""` pattern of
the serializer loops. -/
def commaSep : List (List Char) → List Char
  | [] => []
  | [x] => x
  | x :: y :: l => x ++ ',' :: commaSep (y :: l)

/-- One hint line rendered as `[v1,v2,...]`. -/
def renderList (l : List Int) : List Char :=
  '[' :: (commaSep (l.map intDigits) ++ [']'])

/-- A list of hint lines rendered as `[[...],[...],...]`. -/
def renderLL (L : List (List Int)) : List Char :=
  '[' :: (commaSep (L.map renderList) ++ [']'])

/-- The serializer's per-line truncation: stop at the first stored `0`
(`if (!hints->rows[row][index]) break`). -/
def posTake : List Int → List Int
  | [] => []
  | x :: l => if x = 0 then [] else x :: posTake l

/-- The serializer's loop bound `index < count` over the stored array. -/
def takeN {α : Type} : Nat → List α → List α
  | 0, _ => []
  | _ + 1, [] => []
  | n + 1, x :: l => x :: takeN n l

def rowsKeyChars : List Char := ("\x7b\"rows\":").toList

def colsKeyChars : List Char := (",\"cols\":").toList

def closeChars : List Char := ("\x7d").toList

/-- `nonogram_hints_to_string(hints)` (nonogram.c:250-307), as the character
sequence it builds. -/
def nonogram_hints_to_string (hints : NonoGramHints) : List Char :=
  rowsKeyChars ++
  renderLL ((List.range hints.rows_count).map fun r =>
    posTake (takeN hints.cols_count (nthD hints.rows r []))) ++
  colsKeyChars ++
  renderLL ((List.range hints.cols_count).map fun c =>
    posTake (takeN hints.rows_count (nthD hints.cols c []))) ++
  closeChars

/-- The leading digit span of the input (cJSON's number scan). -/
def digitsTake : List Char → List Char
  | [] => []
  | c :: s => if isDigitChar c then c :: digitsTake s else []

/-- The input after its leading digit span. -/
def digitsDrop : List Char → List Char
  | [] => []
  | c :: s => if isDigitChar c then digitsDrop s else c :: s

/-- Fold a digit span into the number it denotes. -/
def valAux : Nat → List Char → Nat
  | a, [] => a
  | a, c :: s => valAux (10 * a + digitVal c) s

/-- Modelled from the spec: the external cJSON parser, restricted to the
canonical wire form of §4.1/§6 (`{"rows":[[ints]],"cols":[[ints]]}`,
integers only).  cJSON itself is third-party code that is not part of this
repository's sources; these parsing functions follow the spec's description
of the wire format.  `parseNatSeq` reads `n1,n2,...,nk]`. -/
def parseNatSeq : Nat → List Char → Option (List Nat × List Char)
  | 0, _ => none
  | fuel + 1, s =>
    match digitsTake s with
    | [] => none
    | d :: ds =>
      match digitsDrop s with
      | ']' :: r => some ([valAux 0 (d :: ds)], r)
      | ',' :: r =>
        match parseNatSeq fuel r with
        | some (vs, r2) => some (valAux 0 (d :: ds) :: vs, r2)
        | none => none
      | _ => none

end Nonogram

namespace Nonogram

/-- Modelled from the spec: one JSON array of integers, `[]` or
`[n1,...,nk]`. -/
def parseList (fuel : Nat) (s : List Char) : Option (List Nat × List Char) :=
  match s with
  | '[' :: r =>
    match r with
    | [] => none
    | c :: r2 => if c = ']' then some ([], r2) else parseNatSeq fuel (c :: r2)
  | _ => none

/-- Modelled from the spec: the elements of a JSON array of arrays,
`a1,a2,...,ak]`. -/
def parseListSeq : Nat → List Char → Option (List (List Nat) × List Char)
  | 0, _ => none
  | fuel + 1, s =>
    match parseList fuel s with
    | none => none
    | some (l, r) =>
      match r with
      | ']' :: r2 => some ([l], r2)
      | ',' :: r2 =>
        match parseListSeq fuel r2 with
        | some (ls, r3) => some (l :: ls, r3)
        | none => none
      | _ => none

/-- Modelled from the spec: a JSON array of arrays of integers. -/
def parseLL (fuel : Nat) (s : List Char) : Option (List (List Nat) × List Char) :=
  match s with
  | '[' :: r =>
    match r with
    | [] => none
    | c :: r2 =>
      if c = ']' then some (([] : List (List Nat)), r2)
      else parseListSeq fuel (c :: r2)
  | _ => none

/-- Consume an expected literal prefix. -/
def dropLit : List Char → List Char → Option (List Char)
  | [], s => some s
  | _ :: _, [] => none
  | a :: lit, c :: s => if a = c then dropLit lit s else none

/-- Modelled from the spec: cJSON parsing of the canonical hint text plus
the `rows`/`cols` member extraction — the whole text
`{"rows":R,"cols":C}` with `R`, `C` arrays of arrays of integers. -/
def parseHintsText (s : List Char) : Option (List (List Nat) × List (List Nat)) :=
  match dropLit rowsKeyChars s with
  | none => none
  | some s1 =>
    match parseLL s1.length s1 with
    | none => none
    | some (R, s2) =>
      match dropLit colsKeyChars s2 with
      | none => none
      | some s3 =>
        match parseLL s3.length s3 with
        | none => none
        | some (C, s4) =>
          if s4 = closeChars then some (R, C) else none

/-- `parse_json` (the companion translation unit, lines 173-300), after
cJSON: `rows_count`/`cols_count` are the array sizes, and each stored hint
line is the array's numbers followed by a terminating `0`
(`hints->rows[i][count] = 0`). -/
def parse_json (s : List Char) : Option NonoGramHints :=
  match parseHintsText s with
  | none => none
  | some (R, C) =>
      some { rows_count := R.length
             cols_count := C.length
             rows := R.map fun l => natsToInts l ++ [0]
             cols := C.map fun l => natsToInts l ++ [0] }

end Nonogram

namespace Nonogram

/-! ### Decimal rendering round-trips through the digit scanner -/

theorem natDigits_small (n : Nat) (h : n < 10) : natDigits n = [digitChar n] := by
  rw [natDigits, if_pos h]

theorem natDigits_large (n : Nat) (h : ¬ n < 10) :
    natDigits n = natDigits (n / 10) ++ [digitChar (n % 10)] := by
  rw [natDigits]
  rw [if_neg h]

theorem natDigits_ne_nil (n : Nat) : natDigits n ≠ [] := by
  by_cases h : n < 10
  · rw [natDigits_small n h]; simp
  · rw [natDigits_large n h]; simp

theorem digitVal_digitChar (d : Nat) (h : d < 10) : digitVal (digitChar d) = d := by
  interval_cases d <;> rfl

theorem isDigitChar_digitChar (d : Nat) (h : d < 10) :
    isDigitChar (digitChar d) = true := by
  interval_cases d <;> rfl

theorem natDigits_all_digit (n : Nat) :
    ∀ c ∈ natDigits n, isDigitChar c = true := by
  induction n using Nat.strong_induction_on with
  | _ n ih =>
    by_cases h : n < 10
    · rw [natDigits_small n h]
      intro c hc
      rw [List.mem_singleton] at hc
      subst hc
      exact isDigitChar_digitChar n h
    · rw [natDigits_large n h]
      intro c hc
      rcases List.mem_append.mp hc with hc | hc
      · exact ih (n / 10) (Nat.div_lt_self (by omega) (by omega)) c hc
      · rw [List.mem_singleton] at hc
        subst hc
        exact isDigitChar_digitChar _ (Nat.mod_lt _ (by omega))

theorem valAux_append (x y : List Char) :
    ∀ a : Nat, valAux a (x ++ y) = valAux (valAux a x) y := by
  induction x with
  | nil => intro a; rfl
  | cons c x ih => intro a; simp [valAux, ih]

theorem valAux_natDigits (n : Nat) :
    ∀ a : Nat, valAux a (natDigits n) = a * 10 ^ (natDigits n).length + n := by
  induction n using Nat.strong_induction_on with
  | _ n ih =>
    intro a
    by_cases h : n < 10
    · rw [natDigits_small n h]
      simp only [valAux, List.length_singleton, pow_one]
      rw [digitVal_digitChar n h]
      omega
    · rw [natDigits_large n h, valAux_append]
      rw [ih (n / 10) (Nat.div_lt_self (by omega) (by omega))]
      simp only [valAux]
      rw [digitVal_digitChar _ (Nat.mod_lt _ (by omega))]
      rw [List.length_append, List.length_singleton, pow_succ]
      calc 10 * (a * 10 ^ (natDigits (n / 10)).length + n / 10) + n % 10
      _ = a * (10 ^ (natDigits (n / 10)).length * 10) + (n / 10 * 10 + n % 10) := by
        ring
      _ = a * (10 ^ (natDigits (n / 10)).length * 10) + n := by
        omega

theorem valAux_zero_natDigits (n : Nat) : valAux 0 (natDigits n) = n := by
  rw [valAux_natDigits]
  simp

/-- Scanning a digit span followed by a non-digit splits exactly there. -/
theorem digits_split (a : List Char) (c : Char) (b : List Char)
    (ha : ∀ x ∈ a, isDigitChar x = true) (hc : isDigitChar c = false) :
    digitsTake (a ++ c :: b) = a ∧ digitsDrop (a ++ c :: b) = c :: b := by
  induction a with
  | nil => simp [digitsTake, digitsDrop, hc]
  | cons x a ih =>
    have hx : isDigitChar x = true := ha x (List.mem_cons_self _ _)
    have ha2 : ∀ y ∈ a, isDigitChar y = true := fun y hy => ha y (List.mem_cons_of_mem _ hy)
    obtain ⟨h1, h2⟩ := ih ha2
    constructor
    · simp [digitsTake, hx, h1]
    · simp [digitsDrop, hx, h2]

/-! ### The serializer's truncation on derived hint lines -/

theorem posTake_all (l : List Int) (h : ∀ x ∈ l, x ≠ 0) : posTake l = l := by
  induction l with
  | nil => rfl
  | cons x l ih =>
    have hx : x ≠ 0 := h x (List.mem_cons_self _ _)
    simp [posTake, hx, ih fun y hy => h y (List.mem_cons_of_mem _ hy)]

theorem posTake_append_zero (l : List Int) (r : List Int)
    (h : ∀ x ∈ l, x ≠ 0) : posTake (l ++ 0 :: r) = l := by
  induction l with
  | nil => simp [posTake]
  | cons x l ih =>
    have hx : x ≠ 0 := h x (List.mem_cons_self _ _)
    simp [posTake, hx, ih fun y hy => h y (List.mem_cons_of_mem _ hy)]

theorem natsToInts_ne_zero (B : List Nat) (hp : ∀ k ∈ B, 0 < k) :
    ∀ x ∈ natsToInts B, x ≠ 0 := by
  intro x hx
  unfold natsToInts at hx
  rw [List.mem_map] at hx
  obtain ⟨k, hk, hkx⟩ := hx
  have hkpos := hp k hk
  omega

theorem takeN_all {α : Type} :
    ∀ (l : List α) (n : Nat), l.length ≤ n → takeN n l = l := by
  intro l
  induction l with
  | nil => intro n _; cases n <;> rfl
  | cons x l ih =>
    intro n hn
    cases n with
    | zero => simp at hn
    | succ n =>
      simp only [List.length_cons] at hn
      simp [takeN, ih n (by omega)]

theorem takeN_append_le {α : Type} :
    ∀ (l l2 : List α) (n : Nat), l.length ≤ n →
      takeN n (l ++ l2) = l ++ takeN (n - l.length) l2 := by
  intro l
  induction l with
  | nil => intro l2 n _; simp
  | cons x l ih =>
    intro l2 n hn
    cases n with
    | zero => simp at hn
    | succ n =>
      simp only [List.length_cons] at hn
      simp only [List.length_cons]
      have hidx : n + 1 - (l.length + 1) = n - l.length := by omega
      rw [hidx, List.cons_append]
      show x :: takeN n (l ++ l2) = x :: (l ++ takeN (n - l.length) l2)
      rw [ih l2 n (by omega)]

theorem maximalBlocksNat_length_le_aux :
    ∀ (n : Nat) (l : List Int), l.length ≤ n →
      (maximalBlocksNat l).length ≤ l.length := by
  intro n
  induction n with
  | zero =>
    intro l hl
    have : l = [] := List.eq_nil_of_length_eq_zero (Nat.le_zero.mp hl)
    subst this
    simp [maximalBlocksNat]
  | succ n ih =>
    intro l hl
    match l with
    | [] => simp [maximalBlocksNat]
    | x :: rest =>
      by_cases hx : x = 1
      · rw [show maximalBlocksNat (x :: rest) =
            (countRun rest + 1) :: maximalBlocksNat (dropRun rest) by
            simp [maximalBlocksNat, hx]]
        have hdl := dropRun_length_le rest
        have := ih (dropRun rest) (by simp only [List.length_cons] at hl; omega)
        simp only [List.length_cons]
        omega
      · rw [show maximalBlocksNat (x :: rest) = maximalBlocksNat rest by
            simp [maximalBlocksNat, hx]]
        have := ih rest (by simp only [List.length_cons] at hl; omega)
        simp only [List.length_cons]
        omega

theorem maximalBlocksNat_length_le (l : List Int) :
    (maximalBlocksNat l).length ≤ l.length :=
  maximalBlocksNat_length_le_aux l.length l (Nat.le_refl _)

theorem takeN_nil {α : Type} : ∀ n : Nat, takeN n ([] : List α) = [] := by
  intro n
  cases n <;> rfl

theorem takeN_succ_singleton {α : Type} (n : Nat) (x : α) :
    takeN (n + 1) [x] = [x] := by
  show x :: takeN n [] = [x]
  rw [takeN_nil]

theorem natsToInts_length (B : List Nat) : (natsToInts B).length = B.length := by
  unfold natsToInts
  rw [List.length_map]

/-- What the serializer emits for a derived hint line: exactly the
maximal-block lengths. -/
theorem posTake_takeN_fillLine (line : List Int) (n : Nat)
    (hn : line.length ≤ n) :
    posTake (takeN n (fillLine line)) = natsToInts (maximalBlocksNat line) := by
  have hblen : (maximalBlocksNat line).length ≤ n :=
    Nat.le_trans (maximalBlocksNat_length_le line) hn
  have hpos := maximalBlocksNat_pos line
  have hne := natsToInts_ne_zero _ hpos
  rcases fillLine_blocks line with hfill | hfill
  · rw [hfill, takeN_all _ _ (by rw [natsToInts_length]; exact hblen)]
    exact posTake_all _ hne
  · rw [hfill, takeN_append_le _ _ _ (by rw [natsToInts_length]; exact hblen)]
    rcases Nat.lt_or_ge (natsToInts (maximalBlocksNat line)).length n with hlt | hge
    · rw [show n - (natsToInts (maximalBlocksNat line)).length =
          (n - (natsToInts (maximalBlocksNat line)).length - 1) + 1 by omega]
      rw [takeN_succ_singleton]
      exact posTake_append_zero _ _ hne
    · have heq : n - (natsToInts (maximalBlocksNat line)).length = 0 := by
        rw [natsToInts_length] at *
        omega
      rw [heq]
      rw [show takeN 0 ([(0 : Int)]) = [] from rfl]
      simp only [List.append_nil]
      exact posTake_all _ hne

theorem getRow_length (b : List (List Int)) (r n : Nat) :
    (getRow b r n).length = n := by
  simp [getRow]

theorem getCol_length (b : List (List Int)) (c n : Nat) :
    (getCol b c n).length = n := by
  simp [getCol]

end Nonogram

namespace Nonogram

/-! ### Parser correctness on rendered text -/

/-- A hint line of naturals rendered as `[v1,...,vk]`. -/
def renderListNat (l : List Nat) : List Char :=
  '[' :: (commaSep (l.map natDigits) ++ [']'])

/-- Hint lines of naturals rendered as `[[...],...]`. -/
def renderLLNat (L : List (List Nat)) : List Char :=
  '[' :: (commaSep (L.map renderListNat) ++ [']'])

theorem intDigits_cast (k : Nat) : intDigits ((k : Int)) = natDigits k := by
  unfold intDigits
  rw [if_neg (by omega)]
  rw [Int.toNat_natCast]

theorem renderList_natsToInts (K : List Nat) :
    renderList (natsToInts K) = renderListNat K := by
  unfold renderList renderListNat natsToInts
  rw [List.map_map]
  have h : K.map (intDigits ∘ fun k : Nat => (k : Int)) = K.map natDigits :=
    List.map_congr_left fun k _ => intDigits_cast k
  rw [h]

theorem renderLL_natsToInts (L : List (List Nat)) :
    renderLL (L.map natsToInts) = renderLLNat L := by
  unfold renderLL renderLLNat
  rw [List.map_map]
  have h : L.map (renderList ∘ natsToInts) = L.map renderListNat :=
    List.map_congr_left fun l _ => renderList_natsToInts l
  rw [h]

theorem parseNatSeq_render :
    ∀ (xs : List Nat) (fuel : Nat) (rest : List Char),
      xs ≠ [] → xs.length ≤ fuel →
      parseNatSeq fuel (commaSep (xs.map natDigits) ++ ']' :: rest) =
        some (xs, rest) := by
  intro xs
  induction xs with
  | nil => intro fuel rest hne _; exact absurd rfl hne
  | cons x xs ih =>
    intro fuel rest _ hlen
    cases fuel with
    | zero => simp at hlen
    | succ fuel =>
      cases xs with
      | nil =>
        obtain ⟨h1, h2⟩ :=
          digits_split (natDigits x) ']' rest (natDigits_all_digit x) rfl
        rw [show commaSep (([x] : List Nat).map natDigits) = natDigits x from rfl]
        simp only [parseNatSeq]
        rw [h1, h2]
        cases hnd : natDigits x with
        | nil => exact absurd hnd (natDigits_ne_nil x)
        | cons d ds =>
          show some ([valAux 0 (d :: ds)], rest) = some ([x], rest)
          rw [← hnd, valAux_zero_natDigits]
      | cons y ys =>
        have hcs : commaSep ((x :: y :: ys).map natDigits) =
            natDigits x ++ ',' :: commaSep ((y :: ys).map natDigits) := rfl
        rw [hcs, List.append_assoc, List.cons_append]
        obtain ⟨h1, h2⟩ :=
          digits_split (natDigits x) ','
            (commaSep ((y :: ys).map natDigits) ++ ']' :: rest)
            (natDigits_all_digit x) rfl
        simp only [parseNatSeq]
        rw [h1, h2]
        cases hnd : natDigits x with
        | nil => exact absurd hnd (natDigits_ne_nil x)
        | cons d ds =>
          have hrec := ih fuel rest (by simp)
            (by simp only [List.length_cons] at hlen ⊢; omega)
          show (match parseNatSeq fuel
              (commaSep ((y :: ys).map natDigits) ++ ']' :: rest) with
            | some (vs, r2) => some (valAux 0 (d :: ds) :: vs, r2)
            | none => none) = some (x :: y :: ys, rest)
          rw [hrec]
          show some (valAux 0 (d :: ds) :: y :: ys, rest) = some (x :: y :: ys, rest)
          rw [← hnd, valAux_zero_natDigits]

theorem parseList_render (l : List Nat) (fuel : Nat) (rest : List Char)
    (hlen : l.length ≤ fuel) :
    parseList fuel (renderListNat l ++ rest) = some (l, rest) := by
  cases l with
  | nil => rfl
  | cons x xs =>
    have hstr : renderListNat (x :: xs) ++ rest =
        '[' :: (commaSep ((x :: xs).map natDigits) ++ ']' :: rest) := by
      simp [renderListNat]
    rw [hstr]
    cases hnd : natDigits x with
    | nil => exact absurd hnd (natDigits_ne_nil x)
    | cons d ds =>
      have hd : isDigitChar d = true :=
        natDigits_all_digit x d (by rw [hnd]; exact List.mem_cons_self _ _)
      have hdne : d ≠ ']' := by
        intro he
        rw [he] at hd
        exact absurd hd (by decide)
      obtain ⟨tail, htail⟩ : ∃ tail,
          commaSep ((x :: xs).map natDigits) ++ ']' :: rest = d :: tail := by
        cases xs with
        | nil =>
          refine ⟨ds ++ ']' :: rest, ?_⟩
          rw [show commaSep (([x] : List Nat).map natDigits) = natDigits x from rfl,
            hnd, List.cons_append]
        | cons y ys =>
          refine ⟨ds ++ ',' :: commaSep ((y :: ys).map natDigits) ++ ']' :: rest, ?_⟩
          rw [show commaSep ((x :: y :: ys).map natDigits) =
              natDigits x ++ ',' :: commaSep ((y :: ys).map natDigits) from rfl,
            hnd]
          simp
      rw [htail]
      show (if d = ']' then some (([] : List Nat), tail)
        else parseNatSeq fuel (d :: tail)) = some (x :: xs, rest)
      rw [if_neg hdne, ← htail]
      exact parseNatSeq_render (x :: xs) fuel rest (by simp) hlen

end Nonogram

namespace Nonogram

theorem parseListSeq_render :
    ∀ (L : List (List Nat)) (fuel : Nat) (rest : List Char),
      L ≠ [] → L.length + (L.map List.length).sum ≤ fuel →
      parseListSeq fuel (commaSep (L.map renderListNat) ++ ']' :: rest) =
        some (L, rest) := by
  intro L
  induction L with
  | nil => intro fuel rest hne _; exact absurd rfl hne
  | cons x xs ih =>
    intro fuel rest _ hfuel
    cases fuel with
    | zero =>
      exfalso
      simp only [List.length_cons] at hfuel
      omega
    | succ fuel =>
      have hx_fuel : x.length ≤ fuel := by
        simp only [List.length_cons, List.map_cons, List.sum_cons] at hfuel
        omega
      cases xs with
      | nil =>
        rw [show commaSep ((x :: ([] : List (List Nat))).map renderListNat) =
            renderListNat x from rfl]
        simp only [parseListSeq]
        rw [parseList_render x fuel (']' :: rest) hx_fuel]
        rfl
      | cons y ys =>
        rw [show commaSep ((x :: y :: ys).map renderListNat) =
            renderListNat x ++ ',' :: commaSep ((y :: ys).map renderListNat) from rfl]
        rw [List.append_assoc, List.cons_append]
        simp only [parseListSeq]
        rw [parseList_render x fuel _ hx_fuel]
        have hrec := ih fuel rest (by simp)
          (by
            simp only [List.length_cons, List.map_cons, List.sum_cons] at hfuel ⊢
            omega)
        show (match parseListSeq fuel
            (commaSep ((y :: ys).map renderListNat) ++ ']' :: rest) with
          | some (ls, r3) => some (x :: ls, r3)
          | none => none) = some (x :: y :: ys, rest)
        rw [hrec]

theorem parseLL_render (L : List (List Nat)) (fuel : Nat) (rest : List Char)
    (hfuel : L.length + (L.map List.length).sum ≤ fuel) :
    parseLL fuel (renderLLNat L ++ rest) = some (L, rest) := by
  cases L with
  | nil => rfl
  | cons x xs =>
    have hstr : renderLLNat (x :: xs) ++ rest =
        '[' :: (commaSep ((x :: xs).map renderListNat) ++ ']' :: rest) := by
      simp [renderLLNat]
    rw [hstr]
    obtain ⟨tail, htail⟩ : ∃ tail,
        commaSep ((x :: xs).map renderListNat) ++ ']' :: rest = '[' :: tail := by
      cases xs with
      | nil =>
        refine ⟨(commaSep (x.map natDigits) ++ [']']) ++ ']' :: rest, ?_⟩
        rw [show commaSep ((x :: ([] : List (List Nat))).map renderListNat) =
            renderListNat x from rfl]
        simp [renderListNat]
      | cons y ys =>
        refine ⟨(commaSep (x.map natDigits) ++ [']']) ++
          ',' :: commaSep ((y :: ys).map renderListNat) ++ ']' :: rest, ?_⟩
        rw [show commaSep ((x :: y :: ys).map renderListNat) =
            renderListNat x ++ ',' :: commaSep ((y :: ys).map renderListNat) from rfl]
        simp [renderListNat]
    rw [htail]
    show (if ('[' : Char) = ']' then some (([] : List (List Nat)), tail)
      else parseListSeq fuel ('[' :: tail)) = some (x :: xs, rest)
    rw [if_neg (by decide), ← htail]
    exact parseListSeq_render (x :: xs) fuel rest (by simp) hfuel

/-! ### The parsing fuel is covered by the text length -/

theorem one_le_natDigits_length (n : Nat) : 1 ≤ (natDigits n).length := by
  by_cases h : n < 10
  · rw [natDigits_small n h]; simp
  · rw [natDigits_large n h]; simp

theorem len_le_commaSep_digits :
    ∀ l : List Nat, l.length ≤ (commaSep (l.map natDigits)).length := by
  intro l
  induction l with
  | nil => simp [commaSep]
  | cons x xs ih =>
    cases xs with
    | nil =>
      rw [show commaSep (([x] : List Nat).map natDigits) = natDigits x from rfl]
      simpa using one_le_natDigits_length x
    | cons y ys =>
      rw [show commaSep ((x :: y :: ys).map natDigits) =
          natDigits x ++ ',' :: commaSep ((y :: ys).map natDigits) from rfl]
      have h1 := one_le_natDigits_length x
      simp only [List.length_cons, List.length_append] at ih ⊢
      omega

theorem renderListNat_length (l : List Nat) :
    l.length + 2 ≤ (renderListNat l).length := by
  unfold renderListNat
  have := len_le_commaSep_digits l
  simp only [List.length_cons, List.length_append, List.length_singleton]
  omega

theorem sumlen_le_commaSep_lists :
    ∀ L : List (List Nat),
      L.length + (L.map List.length).sum ≤
        (commaSep (L.map renderListNat)).length + 1 := by
  intro L
  induction L with
  | nil => simp [commaSep]
  | cons x xs ih =>
    cases xs with
    | nil =>
      rw [show commaSep (([x] : List (List Nat)).map renderListNat) =
          renderListNat x from rfl]
      have := renderListNat_length x
      simp only [List.length_cons, List.map_cons, List.sum_cons, List.map_nil,
        List.sum_nil, List.length_nil]
      omega
    | cons y ys =>
      rw [show commaSep ((x :: y :: ys).map renderListNat) =
          renderListNat x ++ ',' :: commaSep ((y :: ys).map renderListNat) from rfl]
      have h1 := renderListNat_length x
      simp only [List.length_cons, List.map_cons, List.sum_cons,
        List.length_append] at ih ⊢
      omega

theorem fuelBound_renderLLNat (L : List (List Nat)) :
    L.length + (L.map List.length).sum ≤ (renderLLNat L).length := by
  unfold renderLLNat
  have := sumlen_le_commaSep_lists L
  simp only [List.length_cons, List.length_append, List.length_singleton]
  omega

theorem dropLit_append : ∀ (lit s : List Char), dropLit lit (lit ++ s) = some s := by
  intro lit
  induction lit with
  | nil => intro s; rfl
  | cons a lit ih => intro s; simp [dropLit, ih]

end Nonogram

namespace Nonogram

theorem parseHintsText_render (R C : List (List Nat)) :
    parseHintsText (rowsKeyChars ++ renderLLNat R ++ colsKeyChars ++
      renderLLNat C ++ closeChars) = some (R, C) := by
  have hassoc : rowsKeyChars ++ renderLLNat R ++ colsKeyChars ++
      renderLLNat C ++ closeChars =
      rowsKeyChars ++ (renderLLNat R ++ (colsKeyChars ++
        (renderLLNat C ++ closeChars))) := by
    simp [List.append_assoc]
  have hfuel1 : R.length + (R.map List.length).sum ≤
      (renderLLNat R ++ (colsKeyChars ++ (renderLLNat C ++ closeChars))).length := by
    rw [List.length_append]
    have := fuelBound_renderLLNat R
    omega
  have hfuel2 : C.length + (C.map List.length).sum ≤
      (renderLLNat C ++ closeChars).length := by
    rw [List.length_append]
    have := fuelBound_renderLLNat C
    omega
  have hd1 := dropLit_append rowsKeyChars
    (renderLLNat R ++ (colsKeyChars ++ (renderLLNat C ++ closeChars)))
  have h1 := parseLL_render R
    (renderLLNat R ++ (colsKeyChars ++ (renderLLNat C ++ closeChars))).length
    (colsKeyChars ++ (renderLLNat C ++ closeChars)) hfuel1
  have hd2 := dropLit_append colsKeyChars (renderLLNat C ++ closeChars)
  have h2 := parseLL_render C (renderLLNat C ++ closeChars).length
    closeChars hfuel2
  rw [hassoc]
  simp only [parseHintsText, hd1, h1, hd2, h2, if_pos]

/-- The run sequence stored by the fill loop, read back through the
serializer's truncation, is the block list. -/
theorem posTake_fillLine (l : List Int) :
    posTake (fillLine l) = natsToInts (maximalBlocksNat l) := by
  have hne := natsToInts_ne_zero _ (maximalBlocksNat_pos l)
  rcases fillLine_blocks l with hfill | hfill
  · rw [hfill]
    exact posTake_all _ hne
  · rw [hfill]
    exact posTake_append_zero _ _ hne

/-- Decoded hint line and fill-loop hint line have the same run sequence. -/
theorem posTake_decoded_eq (n : Nat) (g : Nat → List Int) (i : Nat) :
    posTake (nthD ((((List.range n).map fun r => maximalBlocksNat (g r)).map
      fun l => natsToInts l ++ [0])) i []) =
    posTake (nthD ((List.range n).map fun r => fillLine (g r)) i []) := by
  rw [List.map_map]
  rw [nthD_range_map, nthD_range_map]
  by_cases hi : i < n
  · rw [if_pos hi, if_pos hi]
    show posTake (natsToInts (maximalBlocksNat (g i)) ++ [0]) =
      posTake (fillLine (g i))
    rw [posTake_fillLine]
    exact posTake_append_zero _ _ (natsToInts_ne_zero _ (maximalBlocksNat_pos _))
  · rw [if_neg hi, if_neg hi]

/-- C4: round-trip through the canonical textual form.  For every board with
positive dimensions, serializing the hints model derived from it with
`nonogram_hints_to_string` and re-decoding that text with the repository's
JSON hint reader `parse_json` yields a hints model with the same dimensions
and, for every row and column, an identical run sequence (the entries before
the terminating `0`, which is what `posTake` reads). -/
theorem c4_theorem (board : List (List Int)) (rows_count cols_count : Nat)
    (h1 : NonoGramHints)
    (hr : 0 < rows_count) (hc : 0 < cols_count)
    (hcreate : nonogram_hints_create board rows_count cols_count = some h1) :
    ∃ h2, parse_json (nonogram_hints_to_string h1) = some h2 ∧
      h2.rows_count = rows_count ∧ h2.cols_count = cols_count ∧
      (∀ i, posTake (nthD h2.rows i []) = posTake (nthD h1.rows i [])) ∧
      (∀ i, posTake (nthD h2.cols i []) = posTake (nthD h1.cols i [])) := by
  have hnz : ¬ (rows_count = 0 ∨ cols_count = 0) := by omega
  unfold nonogram_hints_create _nonogram_hints_new at hcreate
  rw [if_neg hnz] at hcreate
  simp only [Option.some.injEq] at hcreate
  subst hcreate
  have hRV : (List.range rows_count).map (fun r => posTake (takeN cols_count
      (nthD ((List.range rows_count).map fun r =>
        fillLine (getRow board r cols_count)) r []))) =
      ((List.range rows_count).map fun r =>
        maximalBlocksNat (getRow board r cols_count)).map natsToInts := by
    rw [List.map_map]
    apply List.map_congr_left
    intro r hrmem
    rw [List.mem_range] at hrmem
    show posTake (takeN cols_count (nthD ((List.range rows_count).map fun r =>
      fillLine (getRow board r cols_count)) r [])) =
      natsToInts (maximalBlocksNat (getRow board r cols_count))
    rw [nthD_range_map, if_pos hrmem]
    exact posTake_takeN_fillLine _ _ (by rw [getRow_length])
  have hCV : (List.range cols_count).map (fun c => posTake (takeN rows_count
      (nthD ((List.range cols_count).map fun c =>
        fillLine (getCol board c rows_count)) c []))) =
      ((List.range cols_count).map fun c =>
        maximalBlocksNat (getCol board c rows_count)).map natsToInts := by
    rw [List.map_map]
    apply List.map_congr_left
    intro c hcmem
    rw [List.mem_range] at hcmem
    show posTake (takeN rows_count (nthD ((List.range cols_count).map fun c =>
      fillLine (getCol board c rows_count)) c [])) =
      natsToInts (maximalBlocksNat (getCol board c rows_count))
    rw [nthD_range_map, if_pos hcmem]
    exact posTake_takeN_fillLine _ _ (by rw [getCol_length])
  have hstr : nonogram_hints_to_string
      ⟨rows_count, cols_count,
        (List.range rows_count).map fun r => fillLine (getRow board r cols_count),
        (List.range cols_count).map fun c => fillLine (getCol board c rows_count)⟩ =
      rowsKeyChars ++
        renderLLNat ((List.range rows_count).map fun r =>
          maximalBlocksNat (getRow board r cols_count)) ++
      colsKeyChars ++
        renderLLNat ((List.range cols_count).map fun c =>
          maximalBlocksNat (getCol board c rows_count)) ++
      closeChars := by
    unfold nonogram_hints_to_string
    rw [show (⟨rows_count, cols_count,
        (List.range rows_count).map fun r => fillLine (getRow board r cols_count),
        (List.range cols_count).map fun c => fillLine (getCol board c rows_count)⟩ :
        NonoGramHints).rows_count = rows_count from rfl]
    rw [show (⟨rows_count, cols_count,
        (List.range rows_count).map fun r => fillLine (getRow board r cols_count),
        (List.range cols_count).map fun c => fillLine (getCol board c rows_count)⟩ :
        NonoGramHints).cols_count = cols_count from rfl]
    rw [show (⟨rows_count, cols_count,
        (List.range rows_count).map fun r => fillLine (getRow board r cols_count),
        (List.range cols_count).map fun c => fillLine (getCol board c rows_count)⟩ :
        NonoGramHints).rows =
        (List.range rows_count).map fun r => fillLine (getRow board r cols_count)
        from rfl]
    rw [show (⟨rows_count, cols_count,
        (List.range rows_count).map fun r => fillLine (getRow board r cols_count),
        (List.range cols_count).map fun c => fillLine (getCol board c rows_count)⟩ :
        NonoGramHints).cols =
        (List.range cols_count).map fun c => fillLine (getCol board c rows_count)
        from rfl]
    rw [hRV, hCV, renderLL_natsToInts, renderLL_natsToInts]
  refine ⟨⟨((List.range rows_count).map fun r =>
      maximalBlocksNat (getRow board r cols_count)).length,
    ((List.range cols_count).map fun c =>
      maximalBlocksNat (getCol board c rows_count)).length,
    ((List.range rows_count).map fun r =>
      maximalBlocksNat (getRow board r cols_count)).map fun l => natsToInts l ++ [0],
    ((List.range cols_count).map fun c =>
      maximalBlocksNat (getCol board c rows_count)).map fun l => natsToInts l ++ [0]⟩,
    ?_, ?_, ?_, ?_, ?_⟩
  · unfold parse_json
    rw [hstr, parseHintsText_render]
  · simp
  · simp
  · intro i
    exact posTake_decoded_eq rows_count (fun r => getRow board r cols_count) i
  · intro i
    exact posTake_decoded_eq cols_count (fun c => getCol board c rows_count) i

/-- C4 (witness): the theorem applied to the concrete board
`[[1,0],[0,1]]`, whose derived model round-trips through
`{"rows":[[1],[1]],"cols":[[1],[1]]}`. -/
theorem c4_witness :
    nonogram_hints_create [[1, 0], [0, 1]] 2 2 =
      some ⟨2, 2, [[1, 0], [1]], [[1, 0], [1]]⟩ ∧
    ∃ h2, parse_json (nonogram_hints_to_string
        ⟨2, 2, [[1, 0], [1]], [[1, 0], [1]]⟩) = some h2 ∧
      h2.rows_count = 2 ∧ h2.cols_count = 2 ∧
      (∀ i, posTake (nthD h2.rows i []) =
        posTake (nthD (⟨2, 2, [[1, 0], [1]], [[1, 0], [1]]⟩ :
          NonoGramHints).rows i [])) ∧
      (∀ i, posTake (nthD h2.cols i []) =
        posTake (nthD (⟨2, 2, [[1, 0], [1]], [[1, 0], [1]]⟩ :
          NonoGramHints).cols i [])) := by
  constructor
  · decide
  · exact c4_theorem [[1, 0], [0, 1]] 2 2 _ (by decide) (by decide) (by decide)

end Nonogram
